import Mathlib

/-!
Verification of `priorityqueue.py`: locator-based min- and max-oriented priority
queues implemented with a binary heap over a Python list.

Shallow embedding.  A Python `Locator` object is modelled by a record of its
three slots (`_value`, `_item`, `_index`).  Python object identity is modelled
by giving every locator ever created by a queue a numeric identity: the state
`PQ` carries `store`, the list of all locator records ever created (position in
`store` = object identity), and `heap`, the backing array `_pq` as a list of
identities.  Mutating a field of a locator object mutates its `store` record;
the Python `is` test between `self._pq[j]` and a caller-held locator is
equality of identities.  Python exceptions (`IndexError` from indexing an empty
list in `peek`/`pop`, `ValueError('Invalid locator')` in `update`/`remove`) are
modelled with `Except`: an error result means the exception propagates and the
queue object is left exactly as it was.

`sorted(xs)` (used by `__iter__`) is a stable ascending sort, hence extensionally
equal to `List.insertionSort (· ≤ ·)`; `sorted(xs, reverse=True)` is the stable
descending sort `List.insertionSort (fun a b => b ≤ a)`.
-/

namespace PriorityQueue

/-- The three slots of a Python `Locator`: priority value, payload item, and
current index in the heap. -/
structure Locator (α β : Type) where
  value : β
  item : α
  index : Nat
deriving DecidableEq, Repr

instance (α β : Type) [Inhabited α] [Inhabited β] : Inhabited (Locator α β) :=
  ⟨⟨default, default, 0⟩⟩

/-- Queue state: `store` holds the record of every locator object this queue
ever created (indexed by object identity), `heap` is the Python list `_pq`
as a list of object identities. -/
structure PQ (α β : Type) where
  store : List (Locator α β)
  heap : List Nat
deriving DecidableEq, Repr

/-- The two exceptions of the module: `IndexError` on `peek`/`pop` of an empty
queue (the spec's `EmptyQueueError`) and `ValueError('Invalid locator')`
(the spec's `IllegalLocatorError`). -/
inductive PQError : Type
  | empty
  | invalidLocator
deriving DecidableEq, Repr

variable {α β : Type}

/-- Current record of the locator object with identity `t`. -/
def locOf [Inhabited α] [Inhabited β] (s : PQ α β) (t : Nat) : Locator α β :=
  s.store.getD t default

/-- Identity of the locator stored at heap slot `i` (`self._pq[i]`). -/
def idAt (s : PQ α β) (i : Nat) : Nat :=
  s.heap.getD i 0

/-- The locator stored at heap slot `i`. -/
def entry [Inhabited α] [Inhabited β] (s : PQ α β) (i : Nat) : Locator α β :=
  locOf s (idAt s i)

/-- Priority value at heap slot `i`. -/
def vAt [Inhabited α] [Inhabited β] (s : PQ α β) (i : Nat) : β :=
  (entry s i).value

/-- Ghost view: the (priority, payload) pairs of the live entries in heap-array
order. -/
def pairs [Inhabited α] [Inhabited β] (s : PQ α β) : List (β × α) :=
  s.heap.map (fun t => ((locOf s t).value, (locOf s t).item))

namespace MinHeapPriorityQueue

variable [Inhabited α] [Inhabited β]

/-- `_parent` -/
def parent (j : Nat) : Nat := (j - 1) / 2

/-- `_left` -/
def left (j : Nat) : Nat := 2 * j + 1

/-- `_right` -/
def right (j : Nat) : Nat := 2 * j + 2

/-- Mutate the `_index` slot of the locator object `t`. -/
def setIndex (s : PQ α β) (t i : Nat) : PQ α β :=
  ⟨s.store.set t { s.store.getD t default with index := i }, s.heap⟩

/-- `_swap`: exchange the elements at heap slots `i` and `j`, then update the
`_index` slots of both locator objects. -/
def swap (s : PQ α β) (i j : Nat) : PQ α β :=
  let a := idAt s i
  let b := idAt s j
  let s1 : PQ α β := ⟨s.store, (s.heap.set i b).set j a⟩
  setIndex (setIndex s1 b i) a j

theorem swap_heap_length (s : PQ α β) (i j : Nat) :
    (swap s i j).heap.length = s.heap.length := by
  simp [swap, setIndex]

theorem swap_store_length (s : PQ α β) (i j : Nat) :
    (swap s i j).store.length = s.store.length := by
  simp [swap, setIndex]

variable [LinearOrder β]

/-- `_upheap` of `MinHeapPriorityQueue` (sift-up with the `<` comparison of
`Locator.__lt__`, which compares `_value` slots). -/
def upheap (s : PQ α β) (i : Nat) : PQ α β :=
  if h : 0 < i ∧ vAt s i < vAt s (parent i) then
    upheap (swap s i (parent i)) (parent i)
  else s
termination_by i
decreasing_by
  simp only [parent]
  omega

/-- The local variable `child` of `_downheap`: the left child, or the right
child when it exists and compares `<` the left one. -/
def childSel (s : PQ α β) (i : Nat) : Nat :=
  if right i < s.heap.length ∧ vAt s (right i) < vAt s (left i)
  then right i else left i

/-- `_downheap` of `MinHeapPriorityQueue`. -/
def downheap (s : PQ α β) (i : Nat) : PQ α β :=
  if h1 : left i < s.heap.length then
    if vAt s (childSel s i) < vAt s i then
      downheap (swap s i (childSel s i)) (childSel s i)
    else s
  else s
termination_by s.heap.length - i
decreasing_by
  simp only [swap_heap_length, childSel, left, right] at *
  split <;> omega

/-- `_fix`. -/
def fix (s : PQ α β) (i : Nat) : PQ α β :=
  downheap (upheap s i) i

/-- The loop of `_heapify`: `for j in range(start, -1, -1): self._downheap(j)`. -/
def heapifyFrom (s : PQ α β) : Nat → PQ α β
  | 0 => downheap s 0
  | j + 1 => heapifyFrom (downheap s (j + 1)) j

/-- `_heapify` (only ever called with at least two elements). -/
def heapify (s : PQ α β) : PQ α β :=
  heapifyFrom s (parent (s.heap.length - 1))

/-- `__init__`: decorate each item with its key, assign initial indices in
insertion order, heapify when more than one element. -/
def fromList (key : α → β) (l : List α) : PQ α β :=
  let s : PQ α β := ⟨l.enum.map (fun p => ⟨key p.2, p.2, p.1⟩), List.range l.length⟩
  if 1 < s.heap.length then heapify s else s

/-- `append`: create a fresh locator object at the end and sift it up.
Returns the new state and the token (the new object's identity). -/
def append (key : α → β) (s : PQ α β) (x : α) : PQ α β × Nat :=
  let t := s.store.length
  let tok : Locator α β := ⟨key x, x, s.heap.length⟩
  let s1 : PQ α β := ⟨s.store ++ [tok], s.heap ++ [t]⟩
  (upheap s1 (s1.heap.length - 1), t)

/-- The guard of `update`/`remove`: `0 <= j < len(self) and self._pq[j] is loc`
(`j` is the locator's recorded `_index`; `is` is identity). -/
def valid (s : PQ α β) (t : Nat) : Prop :=
  (locOf s t).index < s.heap.length ∧ idAt s ((locOf s t).index) = t

instance (s : PQ α β) (t : Nat) : Decidable (valid s t) := by
  unfold valid; infer_instance

/-- `update`: validate, overwrite `_value` and `_item` in place
(`_index` stays `j`), then fix slot `j`. -/
def update (s : PQ α β) (t : Nat) (newval : β) (newitem : α) :
    Except PQError (PQ α β) :=
  if valid s t then
    let j := (locOf s t).index
    Except.ok (fix ⟨s.store.set t ⟨newval, newitem, j⟩, s.heap⟩ j)
  else Except.error PQError.invalidLocator

/-- `remove`: validate; if `j` is the last slot just truncate, otherwise swap
with the last slot, truncate and fix slot `j`.  Returns `loc._item` (the item
slot is never written by `swap` or `fix`, so reading it before or after the
structural updates is the same). -/
def remove (s : PQ α β) (t : Nat) : Except PQError (PQ α β × α) :=
  if valid s t then
    let j := (locOf s t).index
    if j = s.heap.length - 1 then
      Except.ok (⟨s.store, s.heap.dropLast⟩, (locOf s t).item)
    else
      let s1 := swap s j (s.heap.length - 1)
      Except.ok (fix ⟨s1.store, s1.heap.dropLast⟩ j, (locOf s t).item)
  else Except.error PQError.invalidLocator

/-- `peek`: `self._pq[0]` raises `IndexError` exactly when the list is empty. -/
def peek (s : PQ α β) : Except PQError α :=
  if s.heap.length = 0 then Except.error PQError.empty
  else Except.ok (entry s 0).item

/-- `pop`: on an empty list `_swap(0, -1)` raises `IndexError` before any
mutation; otherwise swap the root with the last slot, truncate, sift the new
root down, and return the removed locator's item. -/
def pop (s : PQ α β) : Except PQError (PQ α β × α) :=
  if s.heap.length = 0 then Except.error PQError.empty
  else
    let s1 := swap s 0 (s.heap.length - 1)
    let t := idAt s1 (s1.heap.length - 1)
    Except.ok (downheap ⟨s1.store, s1.heap.dropLast⟩ 0, (locOf s1 t).item)

/-- The `items` property: payloads in heap-array order. -/
def items (s : PQ α β) : List α :=
  s.heap.map (fun t => (locOf s t).item)

/-- `__contains__`: `item in self.items` (value equality of payloads). -/
def containsItem [DecidableEq α] (s : PQ α β) (x : α) : Prop :=
  x ∈ items s

instance [DecidableEq α] (s : PQ α β) (x : α) : Decidable (containsItem s x) := by
  unfold containsItem
  infer_instance

/-- `__iter__`: `iter(sorted(self.items))` — the stable ascending sort of the
payloads (by the payloads' own order, not by priority). -/
def iter [LinearOrder α] (s : PQ α β) : List α :=
  List.insertionSort (· ≤ ·) (items s)

/-- Build a queue by `append`ing every element of `l` in order (the auxiliary
construction used in the docstring scenarios). -/
def appendAll (key : α → β) (s : PQ α β) (l : List α) : PQ α β :=
  l.foldl (fun s2 x => (append key s2 x).1) s

/-- Call `pop` `k` times, collecting the returned payloads (stops early if a
pop fails, which does not happen for `k ≤` size). -/
def drain : Nat → PQ α β → List α
  | 0, _ => []
  | k + 1, s =>
    match pop s with
    | Except.ok (s2, x) => x :: drain k s2
    | Except.error _ => []

end MinHeapPriorityQueue

namespace MaxHeapPriorityQueue

variable [Inhabited α] [Inhabited β] [LinearOrder β]

open MinHeapPriorityQueue in
/-- `_upheap` of `MaxHeapPriorityQueue`: comparison direction reversed. -/
def upheap (s : PQ α β) (i : Nat) : PQ α β :=
  if h : 0 < i ∧ vAt s (parent i) < vAt s i then
    upheap (swap s i (parent i)) (parent i)
  else s
termination_by i
decreasing_by
  simp only [MinHeapPriorityQueue.parent]
  omega

open MinHeapPriorityQueue in
/-- The local variable `child` of the overridden `_downheap`. -/
def childSel (s : PQ α β) (i : Nat) : Nat :=
  if right i < s.heap.length ∧ vAt s (left i) < vAt s (right i)
  then right i else left i

open MinHeapPriorityQueue in
/-- `_downheap` of `MaxHeapPriorityQueue`: comparison direction reversed. -/
def downheap (s : PQ α β) (i : Nat) : PQ α β :=
  if h1 : left i < s.heap.length then
    if vAt s i < vAt s (childSel s i) then
      downheap (swap s i (childSel s i)) (childSel s i)
    else s
  else s
termination_by s.heap.length - i
decreasing_by
  simp only [MinHeapPriorityQueue.swap_heap_length, childSel,
    MinHeapPriorityQueue.left, MinHeapPriorityQueue.right] at *
  split <;> omega

/-- `_fix`, inherited code dispatching to the overridden sift primitives. -/
def fix (s : PQ α β) (i : Nat) : PQ α β :=
  downheap (upheap s i) i

/-- The `_heapify` loop, dispatching to the overridden `_downheap`. -/
def heapifyFrom (s : PQ α β) : Nat → PQ α β
  | 0 => downheap s 0
  | j + 1 => heapifyFrom (downheap s (j + 1)) j

/-- `_heapify`, inherited. -/
def heapify (s : PQ α β) : PQ α β :=
  heapifyFrom s (MinHeapPriorityQueue.parent (s.heap.length - 1))

/-- `__init__`, inherited. -/
def fromList (key : α → β) (l : List α) : PQ α β :=
  let s : PQ α β := ⟨l.enum.map (fun p => ⟨key p.2, p.2, p.1⟩), List.range l.length⟩
  if 1 < s.heap.length then heapify s else s

/-- `append`, inherited. -/
def append (key : α → β) (s : PQ α β) (x : α) : PQ α β × Nat :=
  let t := s.store.length
  let tok : Locator α β := ⟨key x, x, s.heap.length⟩
  let s1 : PQ α β := ⟨s.store ++ [tok], s.heap ++ [t]⟩
  (upheap s1 (s1.heap.length - 1), t)

/-- `update`, inherited (dispatches to the overridden `_fix` chain). -/
def update (s : PQ α β) (t : Nat) (newval : β) (newitem : α) :
    Except PQError (PQ α β) :=
  if MinHeapPriorityQueue.valid s t then
    let j := (locOf s t).index
    Except.ok (fix ⟨s.store.set t ⟨newval, newitem, j⟩, s.heap⟩ j)
  else Except.error PQError.invalidLocator

/-- `remove`, inherited. -/
def remove (s : PQ α β) (t : Nat) : Except PQError (PQ α β × α) :=
  if MinHeapPriorityQueue.valid s t then
    let j := (locOf s t).index
    if j = s.heap.length - 1 then
      Except.ok (⟨s.store, s.heap.dropLast⟩, (locOf s t).item)
    else
      let s1 := MinHeapPriorityQueue.swap s j (s.heap.length - 1)
      Except.ok (fix ⟨s1.store, s1.heap.dropLast⟩ j, (locOf s t).item)
  else Except.error PQError.invalidLocator

/-- `pop`, inherited. -/
def pop (s : PQ α β) : Except PQError (PQ α β × α) :=
  if s.heap.length = 0 then Except.error PQError.empty
  else
    let s1 := MinHeapPriorityQueue.swap s 0 (s.heap.length - 1)
    let t := idAt s1 (s1.heap.length - 1)
    Except.ok (downheap ⟨s1.store, s1.heap.dropLast⟩ 0, (locOf s1 t).item)

/-- `__iter__` of `MaxHeapPriorityQueue`:
`iter(sorted(self.items, reverse=True))` — the stable descending sort. -/
def iter [LinearOrder α] (s : PQ α β) : List α :=
  List.insertionSort (fun a b => b ≤ a) (MinHeapPriorityQueue.items s)

end MaxHeapPriorityQueue

namespace Gen

variable [Inhabited α] [Inhabited β]
variable (bt : β → β → Prop) [DecidableRel bt] (gb : α → α → Prop) [DecidableRel gb]

open MinHeapPriorityQueue (parent left right swap setIndex swap_heap_length)

/-- Modelled from the spec (§4.2 Orientation Policy): the single engine's
sift-up, parameterized by the injected is-better-than comparison `bt`. -/
def upheap (s : PQ α β) (i : Nat) : PQ α β :=
  if h : 0 < i ∧ bt (vAt s i) (vAt s (parent i)) then
    upheap (swap s i (parent i)) (parent i)
  else s
termination_by i
decreasing_by
  simp only [MinHeapPriorityQueue.parent]
  omega

/-- Modelled from the spec (§4.2): select the better of the two children. -/
def childSel (s : PQ α β) (i : Nat) : Nat :=
  if right i < s.heap.length ∧ bt (vAt s (right i)) (vAt s (left i))
  then right i else left i

/-- Modelled from the spec (§4.2): the single engine's sift-down,
parameterized by the injected is-better-than comparison `bt`. -/
def downheap (s : PQ α β) (i : Nat) : PQ α β :=
  if h1 : left i < s.heap.length then
    if bt (vAt s (childSel bt s i)) (vAt s i) then
      downheap (swap s i (childSel bt s i)) (childSel bt s i)
    else s
  else s
termination_by s.heap.length - i
decreasing_by
  simp only [MinHeapPriorityQueue.swap_heap_length, childSel,
    MinHeapPriorityQueue.left, MinHeapPriorityQueue.right] at *
  split <;> omega

/-- Modelled from the spec (§4.3 remove/update): attempt sift-up then sift-down. -/
def fix (s : PQ α β) (i : Nat) : PQ α β :=
  downheap bt (upheap bt s i) i

/-- Modelled from the spec (§4.1 build): bottom-up heapify loop. -/
def heapifyFrom (s : PQ α β) : Nat → PQ α β
  | 0 => downheap bt s 0
  | j + 1 => heapifyFrom (downheap bt s (j + 1)) j

/-- Modelled from the spec (§4.1 build): heapify from the last parent. -/
def heapify (s : PQ α β) : PQ α β :=
  heapifyFrom bt s (parent (s.heap.length - 1))

/-- Modelled from the spec (§4.1 build). -/
def fromList (key : α → β) (l : List α) : PQ α β :=
  let s : PQ α β := ⟨l.enum.map (fun p => ⟨key p.2, p.2, p.1⟩), List.range l.length⟩
  if 1 < s.heap.length then heapify bt s else s

/-- Modelled from the spec (§4.1 insert). -/
def append (key : α → β) (s : PQ α β) (x : α) : PQ α β × Nat :=
  let t := s.store.length
  let tok : Locator α β := ⟨key x, x, s.heap.length⟩
  let s1 : PQ α β := ⟨s.store ++ [tok], s.heap ++ [t]⟩
  (upheap bt s1 (s1.heap.length - 1), t)

/-- Modelled from the spec (§4.1 update). -/
def update (s : PQ α β) (t : Nat) (newval : β) (newitem : α) :
    Except PQError (PQ α β) :=
  if MinHeapPriorityQueue.valid s t then
    let j := (locOf s t).index
    Except.ok (fix bt ⟨s.store.set t ⟨newval, newitem, j⟩, s.heap⟩ j)
  else Except.error PQError.invalidLocator

/-- Modelled from the spec (§4.1 remove). -/
def remove (s : PQ α β) (t : Nat) : Except PQError (PQ α β × α) :=
  if MinHeapPriorityQueue.valid s t then
    let j := (locOf s t).index
    if j = s.heap.length - 1 then
      Except.ok (⟨s.store, s.heap.dropLast⟩, (locOf s t).item)
    else
      let s1 := swap s j (s.heap.length - 1)
      Except.ok (fix bt ⟨s1.store, s1.heap.dropLast⟩ j, (locOf s t).item)
  else Except.error PQError.invalidLocator

/-- Modelled from the spec (§4.1 pop_extremal). -/
def pop (s : PQ α β) : Except PQError (PQ α β × α) :=
  if s.heap.length = 0 then Except.error PQError.empty
  else
    let s1 := swap s 0 (s.heap.length - 1)
    let t := idAt s1 (s1.heap.length - 1)
    Except.ok (downheap bt ⟨s1.store, s1.heap.dropLast⟩ 0, (locOf s1 t).item)

/-- Modelled from the spec (§4.1 drain_sorted / §6 iteration): stable sort of
the payloads with the injected goes-before relation `gb`. -/
def iter (s : PQ α β) : List α :=
  List.insertionSort gb (MinHeapPriorityQueue.items s)

/-- Build a queue by repeated insertion. -/
def appendAll (key : α → β) (s : PQ α β) (l : List α) : PQ α β :=
  l.foldl (fun s2 x => (append bt key s2 x).1) s

/-- Pop `k` times, collecting the payloads. -/
def drain : Nat → PQ α β → List α
  | 0, _ => []
  | k + 1, s =>
    match pop bt s with
    | Except.ok (s2, x) => x :: drain k s2
    | Except.error _ => []

end Gen

/-- The state `__init__` builds before the heapify call: decorated locators in
insertion order. -/
def initPQ [Inhabited α] [Inhabited β] (key : α → β) (l : List α) : PQ α β :=
  ⟨l.enum.map (fun p => ⟨key p.2, p.2, p.1⟩), List.range l.length⟩

/-! ### Invariants -/

variable [Inhabited α] [Inhabited β]

/-- All identities in the heap refer to locator objects this queue created. -/
def idsOK (s : PQ α β) : Prop :=
  ∀ i, i < s.heap.length → idAt s i < s.store.length

/-- Position coherence: for every live slot `i`, the locator stored at `i`
has `_index` equal to `i`. -/
def posOK (s : PQ α β) : Prop :=
  ∀ i, i < s.heap.length → (entry s i).index = i

/-- Structural well-formedness: identities in range, position coherence, and
no locator object stored at two heap slots. -/
def WF (s : PQ α β) : Prop :=
  idsOK s ∧ posOK s ∧ s.heap.Nodup

/-- `q` is the index of a child of `p` in the implicit binary tree. -/
def IsChild (q p : Nat) : Prop :=
  q = 2 * p + 1 ∨ q = 2 * p + 2

instance (q p : Nat) : Decidable (IsChild q p) := by
  unfold IsChild; infer_instance

instance (s : PQ α β) : Decidable (idsOK s) := by
  unfold idsOK idAt; infer_instance

instance (s : PQ α β) : Decidable (posOK s) := by
  unfold posOK entry locOf idAt; infer_instance

instance (s : PQ α β) : Decidable (WF s) := by
  unfold WF; infer_instance

/-- Heap order for the injected is-better-than comparison `bt`: every parent is
better than or equal to (not beaten by) each of its children. -/
def genOrdered (bt : β → β → Prop) (s : PQ α β) : Prop :=
  ∀ p, p < s.heap.length → ∀ q, q < s.heap.length → IsChild q p →
    ¬ bt (vAt s q) (vAt s p)

/-- Min-heap order: every parent's priority is `≤` each child's. -/
def minOrdered [LinearOrder β] (s : PQ α β) : Prop :=
  ∀ p, p < s.heap.length → ∀ q, q < s.heap.length → IsChild q p →
    vAt s p ≤ vAt s q

/-- Max-heap order: every parent's priority is `≥` each child's. -/
def maxOrdered [LinearOrder β] (s : PQ α β) : Prop :=
  ∀ p, p < s.heap.length → ∀ q, q < s.heap.length → IsChild q p →
    vAt s q ≤ vAt s p

instance [LinearOrder β] (s : PQ α β) : Decidable (minOrdered s) := by
  unfold minOrdered; infer_instance

instance [LinearOrder β] (s : PQ α β) : Decidable (maxOrdered s) := by
  unfold maxOrdered; infer_instance

section Reachability

variable [Inhabited α] [Inhabited β] [LinearOrder β]

/-- States of a min-oriented queue with key function `key` reachable from a
construction by any sequence of public operations (failed operations leave the
state unchanged, so only successful results appear). -/
inductive MinReachable (key : α → β) : PQ α β → Prop
  | init (l : List α) : MinReachable key (MinHeapPriorityQueue.fromList key l)
  | append (s : PQ α β) (x : α) : MinReachable key s →
      MinReachable key (MinHeapPriorityQueue.append key s x).1
  | pop (s s2 : PQ α β) (x : α) : MinReachable key s →
      MinHeapPriorityQueue.pop s = Except.ok (s2, x) → MinReachable key s2
  | remove (s s2 : PQ α β) (t : Nat) (x : α) : MinReachable key s →
      MinHeapPriorityQueue.remove s t = Except.ok (s2, x) → MinReachable key s2
  | update (s s2 : PQ α β) (t : Nat) (v : β) (x : α) : MinReachable key s →
      MinHeapPriorityQueue.update s t v x = Except.ok s2 → MinReachable key s2

/-- States of a max-oriented queue reachable by the public operations. -/
inductive MaxReachable (key : α → β) : PQ α β → Prop
  | init (l : List α) : MaxReachable key (MaxHeapPriorityQueue.fromList key l)
  | append (s : PQ α β) (x : α) : MaxReachable key s →
      MaxReachable key (MaxHeapPriorityQueue.append key s x).1
  | pop (s s2 : PQ α β) (x : α) : MaxReachable key s →
      MaxHeapPriorityQueue.pop s = Except.ok (s2, x) → MaxReachable key s2
  | remove (s s2 : PQ α β) (t : Nat) (x : α) : MaxReachable key s →
      MaxHeapPriorityQueue.remove s t = Except.ok (s2, x) → MaxReachable key s2
  | update (s s2 : PQ α β) (t : Nat) (v : β) (x : α) : MaxReachable key s →
      MaxHeapPriorityQueue.update s t v x = Except.ok s2 → MaxReachable key s2

/-- One successful public operation on the min-oriented queue. -/
inductive MinStep (key : α → β) : PQ α β → PQ α β → Prop
  | append (s : PQ α β) (x : α) :
      MinStep key s (MinHeapPriorityQueue.append key s x).1
  | pop (s s2 : PQ α β) (x : α) :
      MinHeapPriorityQueue.pop s = Except.ok (s2, x) → MinStep key s s2
  | remove (s s2 : PQ α β) (t : Nat) (x : α) :
      MinHeapPriorityQueue.remove s t = Except.ok (s2, x) → MinStep key s s2
  | update (s s2 : PQ α β) (t : Nat) (v : β) (x : α) :
      MinHeapPriorityQueue.update s t v x = Except.ok s2 → MinStep key s s2

/-- Any number of successful public operations. -/
def MinSteps (key : α → β) : PQ α β → PQ α β → Prop :=
  Relation.ReflTransGen (MinStep key)

end Reachability

end PriorityQueue

unseal PriorityQueue.MinHeapPriorityQueue.upheap
unseal PriorityQueue.MinHeapPriorityQueue.downheap
unseal PriorityQueue.MaxHeapPriorityQueue.upheap
unseal PriorityQueue.MaxHeapPriorityQueue.downheap
unseal PriorityQueue.Gen.upheap
unseal PriorityQueue.Gen.downheap

namespace PriorityQueue

variable {α β : Type}

/-! ### List helper lemmas -/

theorem list_set_self {γ : Type} (l : List γ) (i : Nat) (h : i < l.length) :
    l.set i l[i] = l := by
  apply List.ext_getElem
  · simp
  · intro n h1 h2
    rw [List.getElem_set]
    split
    · subst i; rfl
    · rfl

theorem list_getD_eq_getElem {γ : Type} (l : List γ) (i : Nat) (d : γ)
    (h : i < l.length) : l.getD i d = l[i] := by
  rw [List.getD_eq_getElem?_getD, List.getElem?_eq_getElem h]
  rfl

theorem list_getD_set_eq {γ : Type} (l : List γ) (i : Nat) (a d : γ)
    (h : i < l.length) : (l.set i a).getD i d = a := by
  simp [List.getD_eq_getElem?_getD, List.getElem?_set, h]

theorem list_getD_set_ne {γ : Type} (l : List γ) (i j : Nat) (a d : γ)
    (h : i ≠ j) : (l.set i a).getD j d = l.getD j d := by
  simp [List.getD_eq_getElem?_getD, List.getElem?_set, h]

theorem list_set_getD_self {γ : Type} (l : List γ) (i : Nat) (d : γ)
    (h : i < l.length) : l.set i (l.getD i d) = l := by
  rw [list_getD_eq_getElem l i d h]
  exact list_set_self l i h

theorem list_getD_dropLast {γ : Type} (l : List γ) (i : Nat) (d : γ)
    (h : i < l.length - 1) : l.dropLast.getD i d = l.getD i d := by
  rw [List.getD_eq_getElem?_getD, List.getD_eq_getElem?_getD,
    List.getElem?_eq_getElem (l := l.dropLast) (by simp; omega),
    List.getElem?_eq_getElem (by omega : i < l.length), List.getElem_dropLast]

theorem list_getD_append_left {γ : Type} (l l2 : List γ) (i : Nat) (d : γ)
    (h : i < l.length) : (l ++ l2).getD i d = l.getD i d := by
  rw [List.getD_eq_getElem?_getD, List.getD_eq_getElem?_getD,
    List.getElem?_append_left h]

theorem list_getD_append_last {γ : Type} (l : List γ) (x d : γ) :
    (l ++ [x]).getD l.length d = x := by
  rw [List.getD_eq_getElem?_getD,
    List.getElem?_eq_getElem (by simp : l.length < (l ++ [x]).length)]
  simp

theorem list_getD_mem {γ : Type} (l : List γ) (i : Nat) (d : γ)
    (h : i < l.length) : l.getD i d ∈ l := by
  rw [list_getD_eq_getElem l i d h]
  exact List.getElem_mem h

theorem list_replace_perm {γ : Type} (d x : γ) :
    ∀ (l : List γ) (k : Nat), k < l.length →
      (l.getD k d :: l.set k x).Perm (x :: l)
  | a :: t, 0, _ => by
    simpa using List.Perm.swap x a t
  | a :: t, k + 1, h => by
    have ht : k < t.length := by simpa using h
    have h1 : ((a :: t).getD (k + 1) d :: (a :: t).set (k + 1) x) =
        t.getD k d :: a :: t.set k x := by simp
    rw [h1]
    exact (List.Perm.swap a (t.getD k d) (t.set k x)).trans
      (((list_replace_perm d x t k ht).cons a).trans (List.Perm.swap x a t))

theorem list_set_swap_perm {γ : Type} (d : γ) (l : List γ) (i j : Nat)
    (hi : i < l.length) (hj : j < l.length) :
    ((l.set i (l.getD j d)).set j (l.getD i d)).Perm l := by
  induction l generalizing i j with
  | nil => simp at hi
  | cons a t ih =>
    match i, j with
    | 0, 0 =>
      simp only [List.set_set, List.getD_cons_zero, List.set_cons_zero]
      exact List.Perm.refl _
    | 0, k + 1 =>
      have ht : k < t.length := by simpa using hj
      have h1 : ((a :: t).set 0 ((a :: t).getD (k + 1) d)).set (k + 1)
          ((a :: t).getD 0 d) = t.getD k d :: t.set k a := by simp
      rw [h1]
      exact list_replace_perm d a t k ht
    | m + 1, 0 =>
      have ht : m < t.length := by simpa using hi
      have h1 : ((a :: t).set (m + 1) ((a :: t).getD 0 d)).set 0
          ((a :: t).getD (m + 1) d) = t.getD m d :: t.set m a := by simp
      rw [h1]
      exact list_replace_perm d a t m ht
    | m + 1, k + 1 =>
      have h1 : ((a :: t).set (m + 1) ((a :: t).getD (k + 1) d)).set (k + 1)
          ((a :: t).getD (m + 1) d) =
          a :: (t.set m (t.getD k d)).set k (t.getD m d) := by simp
      rw [h1]
      exact (ih m k (by simpa using hi) (by simpa using hj)).cons a

variable [Inhabited α] [Inhabited β]

theorem minOrdered_iff_gen [LinearOrder β] (s : PQ α β) :
    minOrdered s ↔ genOrdered (fun a b : β => a < b) s := by
  unfold minOrdered genOrdered
  constructor
  · intro h p hp q hq hc
    exact not_lt.mpr (h p hp q hq hc)
  · intro h p hp q hq hc
    exact not_lt.mp (h p hp q hq hc)

theorem maxOrdered_iff_gen [LinearOrder β] (s : PQ α β) :
    maxOrdered s ↔ genOrdered (fun a b : β => b < a) s := by
  unfold maxOrdered genOrdered
  constructor
  · intro h p hp q hq hc
    exact not_lt.mpr (h p hp q hq hc)
  · intro h p hp q hq hc
    exact not_lt.mp (h p hp q hq hc)

/-! ### The two source classes are instances of the one parameterized engine -/

section GenEq

variable [LinearOrder β]

theorem min_upheap_eq_gen (s : PQ α β) (i : Nat) :
    MinHeapPriorityQueue.upheap s i = Gen.upheap (fun a b : β => a < b) s i := by
  induction s, i using MinHeapPriorityQueue.upheap.induct with
  | case1 s i h ih =>
    rw [MinHeapPriorityQueue.upheap, Gen.upheap, dif_pos h, dif_pos h]
    exact ih
  | case2 s i h =>
    rw [MinHeapPriorityQueue.upheap, Gen.upheap, dif_neg h, dif_neg h]

theorem max_upheap_eq_gen (s : PQ α β) (i : Nat) :
    MaxHeapPriorityQueue.upheap s i = Gen.upheap (fun a b : β => b < a) s i := by
  induction s, i using MaxHeapPriorityQueue.upheap.induct with
  | case1 s i h ih =>
    rw [MaxHeapPriorityQueue.upheap, Gen.upheap, dif_pos h, dif_pos h]
    exact ih
  | case2 s i h =>
    rw [MaxHeapPriorityQueue.upheap, Gen.upheap, dif_neg h, dif_neg h]

theorem min_childSel_eq_gen (s : PQ α β) (i : Nat) :
    MinHeapPriorityQueue.childSel s i = Gen.childSel (fun a b : β => a < b) s i := rfl

theorem max_childSel_eq_gen (s : PQ α β) (i : Nat) :
    MaxHeapPriorityQueue.childSel s i = Gen.childSel (fun a b : β => b < a) s i := rfl

theorem min_downheap_eq_gen (s : PQ α β) (i : Nat) :
    MinHeapPriorityQueue.downheap s i = Gen.downheap (fun a b : β => a < b) s i := by
  induction s, i using MinHeapPriorityQueue.downheap.induct with
  | case1 s i h1 hlt ih =>
    rw [MinHeapPriorityQueue.downheap, Gen.downheap, dif_pos h1, dif_pos h1,
      ← min_childSel_eq_gen, if_pos hlt, if_pos hlt]
    exact ih
  | case2 s i h1 hlt =>
    rw [MinHeapPriorityQueue.downheap, Gen.downheap, dif_pos h1, dif_pos h1,
      ← min_childSel_eq_gen, if_neg hlt, if_neg hlt]
  | case3 s i h1 =>
    rw [MinHeapPriorityQueue.downheap, Gen.downheap, dif_neg h1, dif_neg h1]

theorem max_downheap_eq_gen (s : PQ α β) (i : Nat) :
    MaxHeapPriorityQueue.downheap s i = Gen.downheap (fun a b : β => b < a) s i := by
  induction s, i using MaxHeapPriorityQueue.downheap.induct with
  | case1 s i h1 hlt ih =>
    rw [MaxHeapPriorityQueue.downheap, Gen.downheap, dif_pos h1, dif_pos h1,
      ← max_childSel_eq_gen, if_pos hlt, if_pos hlt]
    exact ih
  | case2 s i h1 hlt =>
    rw [MaxHeapPriorityQueue.downheap, Gen.downheap, dif_pos h1, dif_pos h1,
      ← max_childSel_eq_gen, if_neg hlt, if_neg hlt]
  | case3 s i h1 =>
    rw [MaxHeapPriorityQueue.downheap, Gen.downheap, dif_neg h1, dif_neg h1]

theorem min_fix_eq_gen (s : PQ α β) (i : Nat) :
    MinHeapPriorityQueue.fix s i = Gen.fix (fun a b : β => a < b) s i := by
  rw [MinHeapPriorityQueue.fix, Gen.fix, min_upheap_eq_gen, min_downheap_eq_gen]

theorem max_fix_eq_gen (s : PQ α β) (i : Nat) :
    MaxHeapPriorityQueue.fix s i = Gen.fix (fun a b : β => b < a) s i := by
  rw [MaxHeapPriorityQueue.fix, Gen.fix, max_upheap_eq_gen, max_downheap_eq_gen]

theorem min_heapifyFrom_eq_gen (s : PQ α β) (j : Nat) :
    MinHeapPriorityQueue.heapifyFrom s j = Gen.heapifyFrom (fun a b : β => a < b) s j := by
  induction j generalizing s with
  | zero =>
    rw [MinHeapPriorityQueue.heapifyFrom, Gen.heapifyFrom, min_downheap_eq_gen]
  | succ j ih =>
    rw [MinHeapPriorityQueue.heapifyFrom, Gen.heapifyFrom, min_downheap_eq_gen, ih]

theorem max_heapifyFrom_eq_gen (s : PQ α β) (j : Nat) :
    MaxHeapPriorityQueue.heapifyFrom s j = Gen.heapifyFrom (fun a b : β => b < a) s j := by
  induction j generalizing s with
  | zero =>
    rw [MaxHeapPriorityQueue.heapifyFrom, Gen.heapifyFrom, max_downheap_eq_gen]
  | succ j ih =>
    rw [MaxHeapPriorityQueue.heapifyFrom, Gen.heapifyFrom, max_downheap_eq_gen, ih]

theorem min_heapify_eq_gen (s : PQ α β) :
    MinHeapPriorityQueue.heapify s = Gen.heapify (fun a b : β => a < b) s := by
  rw [MinHeapPriorityQueue.heapify, Gen.heapify, min_heapifyFrom_eq_gen]

theorem max_heapify_eq_gen (s : PQ α β) :
    MaxHeapPriorityQueue.heapify s = Gen.heapify (fun a b : β => b < a) s := by
  rw [MaxHeapPriorityQueue.heapify, Gen.heapify, max_heapifyFrom_eq_gen]

theorem min_fromList_eq_gen (key : α → β) (l : List α) :
    MinHeapPriorityQueue.fromList key l = Gen.fromList (fun a b : β => a < b) key l := by
  rw [MinHeapPriorityQueue.fromList, Gen.fromList]
  simp only [min_heapify_eq_gen]

theorem max_fromList_eq_gen (key : α → β) (l : List α) :
    MaxHeapPriorityQueue.fromList key l = Gen.fromList (fun a b : β => b < a) key l := by
  rw [MaxHeapPriorityQueue.fromList, Gen.fromList]
  simp only [max_heapify_eq_gen]

theorem min_append_eq_gen (key : α → β) (s : PQ α β) (x : α) :
    MinHeapPriorityQueue.append key s x = Gen.append (fun a b : β => a < b) key s x := by
  rw [MinHeapPriorityQueue.append, Gen.append]
  simp only [min_upheap_eq_gen]

theorem max_append_eq_gen (key : α → β) (s : PQ α β) (x : α) :
    MaxHeapPriorityQueue.append key s x = Gen.append (fun a b : β => b < a) key s x := by
  rw [MaxHeapPriorityQueue.append, Gen.append]
  simp only [max_upheap_eq_gen]

theorem min_update_eq_gen (s : PQ α β) (t : Nat) (v : β) (x : α) :
    MinHeapPriorityQueue.update s t v x = Gen.update (fun a b : β => a < b) s t v x := by
  rw [MinHeapPriorityQueue.update, Gen.update]
  simp only [min_fix_eq_gen]

theorem max_update_eq_gen (s : PQ α β) (t : Nat) (v : β) (x : α) :
    MaxHeapPriorityQueue.update s t v x = Gen.update (fun a b : β => b < a) s t v x := by
  rw [MaxHeapPriorityQueue.update, Gen.update]
  simp only [max_fix_eq_gen]

theorem min_remove_eq_gen (s : PQ α β) (t : Nat) :
    MinHeapPriorityQueue.remove s t = Gen.remove (fun a b : β => a < b) s t := by
  rw [MinHeapPriorityQueue.remove, Gen.remove]
  simp only [min_fix_eq_gen]

theorem max_remove_eq_gen (s : PQ α β) (t : Nat) :
    MaxHeapPriorityQueue.remove s t = Gen.remove (fun a b : β => b < a) s t := by
  rw [MaxHeapPriorityQueue.remove, Gen.remove]
  simp only [max_fix_eq_gen]

theorem min_pop_eq_gen (s : PQ α β) :
    MinHeapPriorityQueue.pop s = Gen.pop (fun a b : β => a < b) s := by
  rw [MinHeapPriorityQueue.pop, Gen.pop]
  simp only [min_downheap_eq_gen]

theorem max_pop_eq_gen (s : PQ α β) :
    MaxHeapPriorityQueue.pop s = Gen.pop (fun a b : β => b < a) s := by
  rw [MaxHeapPriorityQueue.pop, Gen.pop]
  simp only [max_downheap_eq_gen]

theorem min_iter_eq_gen [LinearOrder α] (s : PQ α β) :
    MinHeapPriorityQueue.iter s = Gen.iter (fun a b : α => a ≤ b) s := rfl

theorem max_iter_eq_gen [LinearOrder α] (s : PQ α β) :
    MaxHeapPriorityQueue.iter s = Gen.iter (fun a b : α => b ≤ a) s := rfl

end GenEq

/-! ### Characterization of `_swap` -/

section SwapLemmas

open MinHeapPriorityQueue

theorem nodup_idAt_inj {s : PQ α β} (hn : s.heap.Nodup) {i j : Nat}
    (hi : i < s.heap.length) (hj : j < s.heap.length) (hne : i ≠ j) :
    idAt s i ≠ idAt s j := by
  unfold idAt
  rw [list_getD_eq_getElem _ _ _ hi, list_getD_eq_getElem _ _ _ hj]
  intro h
  exact hne ((List.Nodup.getElem_inj_iff hn).mp h)

theorem setIndex_heap (s : PQ α β) (u k : Nat) : (setIndex s u k).heap = s.heap := rfl

theorem setIndex_store_length (s : PQ α β) (u k : Nat) :
    (setIndex s u k).store.length = s.store.length := by
  simp [setIndex]

theorem setIndex_locOf_value (s : PQ α β) (u k t : Nat) :
    (locOf (setIndex s u k) t).value = (locOf s t).value := by
  unfold locOf setIndex
  by_cases htu : t = u
  · subst htu
    by_cases hu : t < s.store.length
    · rw [list_getD_set_eq _ _ _ _ hu]
    · rw [List.set_eq_of_length_le (le_of_not_lt hu)]
  · rw [list_getD_set_ne _ _ _ _ _ (fun h => htu h.symm)]

theorem setIndex_locOf_item (s : PQ α β) (u k t : Nat) :
    (locOf (setIndex s u k) t).item = (locOf s t).item := by
  unfold locOf setIndex
  by_cases htu : t = u
  · subst htu
    by_cases hu : t < s.store.length
    · rw [list_getD_set_eq _ _ _ _ hu]
    · rw [List.set_eq_of_length_le (le_of_not_lt hu)]
  · rw [list_getD_set_ne _ _ _ _ _ (fun h => htu h.symm)]

theorem setIndex_locOf_ne (s : PQ α β) (u k t : Nat) (h : t ≠ u) :
    locOf (setIndex s u k) t = locOf s t := by
  unfold locOf setIndex
  rw [list_getD_set_ne _ _ _ _ _ (fun hh => h hh.symm)]

theorem setIndex_locOf_eq (s : PQ α β) (u k : Nat) (hu : u < s.store.length) :
    locOf (setIndex s u k) u = { locOf s u with index := k } := by
  unfold locOf setIndex
  rw [list_getD_set_eq _ _ _ _ hu]

theorem swap_heap (s : PQ α β) (i j : Nat) :
    (swap s i j).heap = (s.heap.set i (idAt s j)).set j (idAt s i) := rfl

theorem swap_idAt (s : PQ α β) (i j k : Nat) (hi : i < s.heap.length)
    (hj : j < s.heap.length) :
    idAt (swap s i j) k =
      if k = j then idAt s i else if k = i then idAt s j else idAt s k := by
  have hh : idAt (swap s i j) k = ((s.heap.set i (idAt s j)).set j (idAt s i)).getD k 0 := rfl
  rw [hh]
  by_cases hkj : k = j
  · subst hkj
    rw [if_pos rfl, list_getD_set_eq _ _ _ _ (by simpa using hj)]
  · rw [if_neg hkj, list_getD_set_ne _ _ _ _ _ (fun h => hkj h.symm)]
    by_cases hki : k = i
    · subst hki
      rw [if_pos rfl, list_getD_set_eq _ _ _ _ hi]
    · rw [if_neg hki, list_getD_set_ne _ _ _ _ _ (fun h => hki h.symm)]
      rfl

theorem swap_locOf_value (s : PQ α β) (i j t : Nat) :
    (locOf (swap s i j) t).value = (locOf s t).value := by
  unfold swap
  rw [setIndex_locOf_value, setIndex_locOf_value]
  rfl

theorem swap_locOf_item (s : PQ α β) (i j t : Nat) :
    (locOf (swap s i j) t).item = (locOf s t).item := by
  unfold swap
  rw [setIndex_locOf_item, setIndex_locOf_item]
  rfl

theorem swap_vAt (s : PQ α β) (i j k : Nat) (hi : i < s.heap.length)
    (hj : j < s.heap.length) :
    vAt (swap s i j) k =
      if k = j then vAt s i else if k = i then vAt s j else vAt s k := by
  unfold vAt entry
  rw [swap_locOf_value, swap_idAt s i j k hi hj]
  by_cases hkj : k = j
  · rw [if_pos hkj, if_pos hkj]
  · rw [if_neg hkj, if_neg hkj]
    by_cases hki : k = i
    · rw [if_pos hki, if_pos hki]
    · rw [if_neg hki, if_neg hki]

theorem swap_locOf_ne (s : PQ α β) (i j t : Nat) (ha : t ≠ idAt s i)
    (hb : t ≠ idAt s j) : locOf (swap s i j) t = locOf s t := by
  unfold swap
  rw [setIndex_locOf_ne _ _ _ _ ha, setIndex_locOf_ne _ _ _ _ hb]
  rfl

theorem swap_locOf_fst (s : PQ α β) (i j : Nat)
    (hu : idAt s i < s.store.length) :
    (locOf (swap s i j) (idAt s i)).index = j := by
  unfold swap
  have h2 := setIndex_locOf_eq
    (setIndex (⟨s.store, (s.heap.set i (idAt s j)).set j (idAt s i)⟩ : PQ α β)
      (idAt s j) i) (idAt s i) j (by simpa [setIndex] using hu)
  rw [h2]

theorem swap_locOf_snd (s : PQ α β) (i j : Nat) (hne : idAt s j ≠ idAt s i)
    (hu : idAt s j < s.store.length) :
    (locOf (swap s i j) (idAt s j)).index = i := by
  unfold swap
  rw [setIndex_locOf_ne _ _ _ _ hne]
  have h2 := setIndex_locOf_eq
    (⟨s.store, (s.heap.set i (idAt s j)).set j (idAt s i)⟩ : PQ α β)
    (idAt s j) i (by simpa using hu)
  rw [h2]

theorem swap_heap_perm (s : PQ α β) (i j : Nat) (hi : i < s.heap.length)
    (hj : j < s.heap.length) : (swap s i j).heap.Perm s.heap := by
  rw [swap_heap]
  exact list_set_swap_perm 0 s.heap i j hi hj

theorem swap_posOK {s : PQ α β} (hW : WF s) {i j : Nat} (hi : i < s.heap.length)
    (hj : j < s.heap.length) : posOK (swap s i j) := by
  obtain ⟨hids, hpos, hnd⟩ := hW
  intro k hk
  rw [swap_heap_length] at hk
  unfold entry
  rw [swap_idAt s i j k hi hj]
  by_cases hkj : k = j
  · rw [if_pos hkj, hkj]
    exact swap_locOf_fst s i j (hids i hi)
  · rw [if_neg hkj]
    by_cases hki : k = i
    · rw [if_pos hki, hki]
      have hij : i ≠ j := fun h => hkj (hki.trans h)
      have hne : idAt s j ≠ idAt s i := nodup_idAt_inj hnd hj hi (fun h => hij h.symm)
      exact swap_locOf_snd s i j hne (hids j hj)
    · rw [if_neg hki]
      rw [swap_locOf_ne s i j _ (nodup_idAt_inj hnd hk hi hki)
        (nodup_idAt_inj hnd hk hj hkj)]
      exact hpos k hk

theorem swap_idsOK {s : PQ α β} (hW : WF s) {i j : Nat} (hi : i < s.heap.length)
    (hj : j < s.heap.length) : idsOK (swap s i j) := by
  obtain ⟨hids, -, -⟩ := hW
  intro k hk
  rw [swap_heap_length] at hk
  rw [swap_store_length, swap_idAt s i j k hi hj]
  by_cases hkj : k = j
  · rw [if_pos hkj]
    exact hids i hi
  · rw [if_neg hkj]
    by_cases hki : k = i
    · rw [if_pos hki]
      exact hids j hj
    · rw [if_neg hki]
      exact hids k hk

theorem swap_WF {s : PQ α β} (hW : WF s) {i j : Nat} (hi : i < s.heap.length)
    (hj : j < s.heap.length) : WF (swap s i j) :=
  ⟨swap_idsOK hW hi hj, swap_posOK hW hi hj,
    ((swap_heap_perm s i j hi hj).nodup_iff).mpr hW.2.2⟩

end SwapLemmas

/-! ### Structural preservation by the sift primitives -/

section GenStructure

open MinHeapPriorityQueue

variable {bt : β → β → Prop} [DecidableRel bt]

theorem gen_upheap_heap_length (s0 : PQ α β) (i0 : Nat) :
    (Gen.upheap bt s0 i0).heap.length = s0.heap.length := by
  refine Gen.upheap.induct bt (fun s i => (Gen.upheap bt s i).heap.length = s.heap.length) ?_ ?_ s0 i0
  · intro s i h ih
    rw [Gen.upheap]
    split
    · exact ih.trans (swap_heap_length s i (parent i))
    · next h2 => exact absurd h h2
  · intro s i h
    rw [Gen.upheap]
    split
    · next h2 => exact absurd h2 h
    · rfl

theorem gen_upheap_store_length (s0 : PQ α β) (i0 : Nat) :
    (Gen.upheap bt s0 i0).store.length = s0.store.length := by
  refine Gen.upheap.induct bt (fun s i => (Gen.upheap bt s i).store.length = s.store.length) ?_ ?_ s0 i0
  · intro s i h ih
    rw [Gen.upheap]
    split
    · exact ih.trans (swap_store_length s i (parent i))
    · next h2 => exact absurd h h2
  · intro s i h
    rw [Gen.upheap]
    split
    · next h2 => exact absurd h2 h
    · rfl

theorem gen_upheap_locOf_value (s0 : PQ α β) (i0 : Nat) :
    ∀ t, (locOf (Gen.upheap bt s0 i0) t).value = (locOf s0 t).value := by
  refine Gen.upheap.induct bt (fun s i => ∀ t, (locOf (Gen.upheap bt s i) t).value = (locOf s t).value) ?_ ?_ s0 i0
  · intro s i h ih t
    rw [Gen.upheap]
    split
    · exact (ih t).trans (swap_locOf_value s i (parent i) t)
    · next h2 => exact absurd h h2
  · intro s i h t
    rw [Gen.upheap]
    split
    · next h2 => exact absurd h2 h
    · rfl

theorem gen_upheap_locOf_item (s0 : PQ α β) (i0 : Nat) :
    ∀ t, (locOf (Gen.upheap bt s0 i0) t).item = (locOf s0 t).item := by
  refine Gen.upheap.induct bt (fun s i => ∀ t, (locOf (Gen.upheap bt s i) t).item = (locOf s t).item) ?_ ?_ s0 i0
  · intro s i h ih t
    rw [Gen.upheap]
    split
    · exact (ih t).trans (swap_locOf_item s i (parent i) t)
    · next h2 => exact absurd h h2
  · intro s i h t
    rw [Gen.upheap]
    split
    · next h2 => exact absurd h2 h
    · rfl

theorem gen_upheap_heap_perm (s0 : PQ α β) (i0 : Nat) :
    i0 < s0.heap.length → (Gen.upheap bt s0 i0).heap.Perm s0.heap := by
  refine Gen.upheap.induct bt (fun s i => i < s.heap.length → (Gen.upheap bt s i).heap.Perm s.heap) ?_ ?_ s0 i0
  · intro s i h ih
    rw [Gen.upheap]
    split
    · intro hi
      have hp : parent i < s.heap.length :=
        lt_of_le_of_lt (by unfold parent; omega) hi
      exact (ih (by rw [swap_heap_length]; exact hp)).trans
        (swap_heap_perm s i (parent i) hi hp)
    · next h2 => exact absurd h h2
  · intro s i h
    rw [Gen.upheap]
    split
    · next h2 => exact absurd h2 h
    · exact fun hi => List.Perm.refl _

theorem gen_upheap_WF (s0 : PQ α β) (i0 : Nat) :
    i0 < s0.heap.length → WF s0 → WF (Gen.upheap bt s0 i0) := by
  refine Gen.upheap.induct bt (fun s i => i < s.heap.length → WF s → WF (Gen.upheap bt s i)) ?_ ?_ s0 i0
  · intro s i h ih
    rw [Gen.upheap]
    split
    · intro hi hW
      have hp : parent i < s.heap.length :=
        lt_of_le_of_lt (by unfold parent; omega) hi
      exact ih (by rw [swap_heap_length]; exact hp) (swap_WF hW hi hp)
    · next h2 => exact absurd h h2
  · intro s i h
    rw [Gen.upheap]
    split
    · next h2 => exact absurd h2 h
    · exact fun hi hW => hW

theorem gen_childSel_range (bc : β → β → Prop) [DecidableRel bc] {s : PQ α β} {i : Nat}
    (h1 : MinHeapPriorityQueue.left i < s.heap.length) :
    i < Gen.childSel bc s i ∧ Gen.childSel bc s i < s.heap.length := by
  unfold Gen.childSel
  split
  · next h => exact ⟨by unfold right; omega, h.1⟩
  · next h => exact ⟨by unfold left; omega, h1⟩

theorem gen_downheap_heap_length (s0 : PQ α β) (i0 : Nat) :
    (Gen.downheap bt s0 i0).heap.length = s0.heap.length := by
  refine Gen.downheap.induct bt (fun s i => (Gen.downheap bt s i).heap.length = s.heap.length) ?_ ?_ ?_ s0 i0
  · intro s i h1 hlt ih
    rw [Gen.downheap]
    split
    · exact ih.trans (swap_heap_length s i _)
    · next h2 => exact absurd h1 h2
  · intro s i h1 hlt
    rw [Gen.downheap]
    split
    · rfl
    · next h2 => exact absurd h1 h2
  · intro s i h1
    rw [Gen.downheap]
    split
    · next h2 => exact absurd h2 h1
    · rfl

theorem gen_downheap_store_length (s0 : PQ α β) (i0 : Nat) :
    (Gen.downheap bt s0 i0).store.length = s0.store.length := by
  refine Gen.downheap.induct bt (fun s i => (Gen.downheap bt s i).store.length = s.store.length) ?_ ?_ ?_ s0 i0
  · intro s i h1 hlt ih
    rw [Gen.downheap]
    split
    · exact ih.trans (swap_store_length s i _)
    · next h2 => exact absurd h1 h2
  · intro s i h1 hlt
    rw [Gen.downheap]
    split
    · rfl
    · next h2 => exact absurd h1 h2
  · intro s i h1
    rw [Gen.downheap]
    split
    · next h2 => exact absurd h2 h1
    · rfl

theorem gen_downheap_locOf_value (s0 : PQ α β) (i0 : Nat) :
    ∀ t, (locOf (Gen.downheap bt s0 i0) t).value = (locOf s0 t).value := by
  refine Gen.downheap.induct bt (fun s i => ∀ t, (locOf (Gen.downheap bt s i) t).value = (locOf s t).value) ?_ ?_ ?_ s0 i0
  · intro s i h1 hlt ih t
    rw [Gen.downheap]
    split
    · exact (ih t).trans (swap_locOf_value s i _ t)
    · next h2 => exact absurd h1 h2
  · intro s i h1 hlt t
    rw [Gen.downheap]
    split
    · rfl
    · next h2 => exact absurd h1 h2
  · intro s i h1 t
    rw [Gen.downheap]
    split
    · next h2 => exact absurd h2 h1
    · rfl

theorem gen_downheap_locOf_item (s0 : PQ α β) (i0 : Nat) :
    ∀ t, (locOf (Gen.downheap bt s0 i0) t).item = (locOf s0 t).item := by
  refine Gen.downheap.induct bt (fun s i => ∀ t, (locOf (Gen.downheap bt s i) t).item = (locOf s t).item) ?_ ?_ ?_ s0 i0
  · intro s i h1 hlt ih t
    rw [Gen.downheap]
    split
    · exact (ih t).trans (swap_locOf_item s i _ t)
    · next h2 => exact absurd h1 h2
  · intro s i h1 hlt t
    rw [Gen.downheap]
    split
    · rfl
    · next h2 => exact absurd h1 h2
  · intro s i h1 t
    rw [Gen.downheap]
    split
    · next h2 => exact absurd h2 h1
    · rfl

theorem gen_downheap_heap_perm (s0 : PQ α β) (i0 : Nat) :
    (Gen.downheap bt s0 i0).heap.Perm s0.heap := by
  refine Gen.downheap.induct bt (fun s i => (Gen.downheap bt s i).heap.Perm s.heap) ?_ ?_ ?_ s0 i0
  · intro s i h1 hlt ih
    rw [Gen.downheap]
    split
    · obtain ⟨hgt, hc⟩ := gen_childSel_range bt h1
      exact ih.trans (swap_heap_perm s i _ (lt_trans hgt hc) hc)
    · next h2 => exact absurd h1 h2
  · intro s i h1 hlt
    rw [Gen.downheap]
    split
    · exact List.Perm.refl _
    · next h2 => exact absurd h1 h2
  · intro s i h1
    rw [Gen.downheap]
    split
    · next h2 => exact absurd h2 h1
    · exact List.Perm.refl _

theorem gen_downheap_WF (s0 : PQ α β) (i0 : Nat) :
    WF s0 → WF (Gen.downheap bt s0 i0) := by
  refine Gen.downheap.induct bt (fun s i => WF s → WF (Gen.downheap bt s i)) ?_ ?_ ?_ s0 i0
  · intro s i h1 hlt ih
    rw [Gen.downheap]
    split
    · intro hW
      obtain ⟨hgt, hc⟩ := gen_childSel_range bt h1
      exact ih (swap_WF hW (lt_trans hgt hc) hc)
    · next h2 => exact absurd h1 h2
  · intro s i h1 hlt
    rw [Gen.downheap]
    split
    · exact id
    · next h2 => exact absurd h1 h2
  · intro s i h1
    rw [Gen.downheap]
    split
    · next h2 => exact absurd h2 h1
    · exact id


theorem gen_fix_heap_length (s : PQ α β) (i : Nat) :
    (Gen.fix bt s i).heap.length = s.heap.length := by
  rw [Gen.fix, gen_downheap_heap_length, gen_upheap_heap_length]

theorem gen_fix_store_length (s : PQ α β) (i : Nat) :
    (Gen.fix bt s i).store.length = s.store.length := by
  rw [Gen.fix, gen_downheap_store_length, gen_upheap_store_length]

theorem gen_fix_locOf_value (s : PQ α β) (i t : Nat) :
    (locOf (Gen.fix bt s i) t).value = (locOf s t).value := by
  rw [Gen.fix, gen_downheap_locOf_value, gen_upheap_locOf_value]

theorem gen_fix_locOf_item (s : PQ α β) (i t : Nat) :
    (locOf (Gen.fix bt s i) t).item = (locOf s t).item := by
  rw [Gen.fix, gen_downheap_locOf_item, gen_upheap_locOf_item]

theorem gen_fix_heap_perm (s : PQ α β) (i : Nat) (hi : i < s.heap.length) :
    (Gen.fix bt s i).heap.Perm s.heap := by
  rw [Gen.fix]
  exact (gen_downheap_heap_perm (Gen.upheap bt s i) i).trans
    (gen_upheap_heap_perm s i hi)

theorem gen_fix_WF (s : PQ α β) (i : Nat) (hi : i < s.heap.length) (hW : WF s) :
    WF (Gen.fix bt s i) := by
  rw [Gen.fix]
  exact gen_downheap_WF _ i (gen_upheap_WF s i hi hW)

theorem gen_heapifyFrom_heap_length (j : Nat) (s : PQ α β) :
    (Gen.heapifyFrom bt s j).heap.length = s.heap.length := by
  induction j generalizing s with
  | zero => rw [Gen.heapifyFrom, gen_downheap_heap_length]
  | succ j ih => rw [Gen.heapifyFrom, ih, gen_downheap_heap_length]

theorem gen_heapifyFrom_store_length (j : Nat) (s : PQ α β) :
    (Gen.heapifyFrom bt s j).store.length = s.store.length := by
  induction j generalizing s with
  | zero => rw [Gen.heapifyFrom, gen_downheap_store_length]
  | succ j ih => rw [Gen.heapifyFrom, ih, gen_downheap_store_length]

theorem gen_heapifyFrom_locOf_value (j : Nat) (s : PQ α β) (t : Nat) :
    (locOf (Gen.heapifyFrom bt s j) t).value = (locOf s t).value := by
  induction j generalizing s with
  | zero => rw [Gen.heapifyFrom, gen_downheap_locOf_value]
  | succ j ih => rw [Gen.heapifyFrom, ih, gen_downheap_locOf_value]

theorem gen_heapifyFrom_locOf_item (j : Nat) (s : PQ α β) (t : Nat) :
    (locOf (Gen.heapifyFrom bt s j) t).item = (locOf s t).item := by
  induction j generalizing s with
  | zero => rw [Gen.heapifyFrom, gen_downheap_locOf_item]
  | succ j ih => rw [Gen.heapifyFrom, ih, gen_downheap_locOf_item]

theorem gen_heapifyFrom_heap_perm (j : Nat) (s : PQ α β) :
    (Gen.heapifyFrom bt s j).heap.Perm s.heap := by
  induction j generalizing s with
  | zero => exact gen_downheap_heap_perm s 0
  | succ j ih =>
    rw [Gen.heapifyFrom]
    exact (ih _).trans (gen_downheap_heap_perm s (j + 1))

theorem gen_heapifyFrom_WF (j : Nat) (s : PQ α β) (hW : WF s) :
    WF (Gen.heapifyFrom bt s j) := by
  induction j generalizing s with
  | zero => exact gen_downheap_WF s 0 hW
  | succ j ih =>
    rw [Gen.heapifyFrom]
    exact ih _ (gen_downheap_WF s (j + 1) hW)

theorem gen_upheap_step (s : PQ α β) (i : Nat)
    (h : 0 < i ∧ bt (vAt s i) (vAt s (parent i))) :
    Gen.upheap bt s i = Gen.upheap bt (swap s i (parent i)) (parent i) := by
  rw [Gen.upheap]
  simp only [h, dite_true, and_self, dif_pos]

theorem gen_upheap_stop (s : PQ α β) (i : Nat)
    (h : ¬(0 < i ∧ bt (vAt s i) (vAt s (parent i)))) :
    Gen.upheap bt s i = s := by
  rw [Gen.upheap]
  simp only [h, dite_false, dif_neg, not_false_eq_true]

theorem gen_downheap_step (s : PQ α β) (k : Nat) (h1 : left k < s.heap.length)
    (hlt : bt (vAt s (Gen.childSel bt s k)) (vAt s k)) :
    Gen.downheap bt s k =
      Gen.downheap bt (swap s k (Gen.childSel bt s k)) (Gen.childSel bt s k) := by
  rw [Gen.downheap]
  simp only [h1, hlt, dite_true, if_true, dif_pos]

theorem gen_downheap_stop (s : PQ α β) (k : Nat) (h1 : left k < s.heap.length)
    (hlt : ¬ bt (vAt s (Gen.childSel bt s k)) (vAt s k)) :
    Gen.downheap bt s k = s := by
  rw [Gen.downheap]
  simp only [h1, hlt, dite_true, if_false, dif_pos, if_neg, not_false_eq_true]

theorem gen_downheap_leaf (s : PQ α β) (k : Nat) (h1 : ¬ left k < s.heap.length) :
    Gen.downheap bt s k = s := by
  rw [Gen.downheap]
  simp only [h1, dif_neg, not_false_eq_true]

end GenStructure


/-! ### Pairs and truncation infrastructure -/

section PairsInfra

open MinHeapPriorityQueue

variable {bt : β → β → Prop} [DecidableRel bt]

theorem pairs_congr {s1 s2 : PQ α β} (hh : s2.heap.Perm s1.heap)
    (hval : ∀ t, (locOf s2 t).value = (locOf s1 t).value)
    (hitem : ∀ t, (locOf s2 t).item = (locOf s1 t).item) :
    (pairs s2).Perm (pairs s1) := by
  unfold pairs
  have hf : (fun t => ((locOf s2 t).value, (locOf s2 t).item)) =
      (fun t => ((locOf s1 t).value, (locOf s1 t).item)) := by
    funext t
    rw [hval t, hitem t]
  rw [hf]
  exact hh.map _

theorem swap_pairs (s : PQ α β) (i j : Nat) (hi : i < s.heap.length)
    (hj : j < s.heap.length) : (pairs (swap s i j)).Perm (pairs s) :=
  pairs_congr (swap_heap_perm s i j hi hj) (swap_locOf_value s i j)
    (swap_locOf_item s i j)

theorem gen_upheap_pairs (s : PQ α β) (i : Nat) (hi : i < s.heap.length) :
    (pairs (Gen.upheap bt s i)).Perm (pairs s) :=
  pairs_congr (gen_upheap_heap_perm s i hi) (gen_upheap_locOf_value s i)
    (gen_upheap_locOf_item s i)

theorem gen_downheap_pairs (s : PQ α β) (i : Nat) :
    (pairs (Gen.downheap bt s i)).Perm (pairs s) :=
  pairs_congr (gen_downheap_heap_perm s i) (gen_downheap_locOf_value s i)
    (gen_downheap_locOf_item s i)

theorem gen_fix_pairs (s : PQ α β) (i : Nat) (hi : i < s.heap.length) :
    (pairs (Gen.fix bt s i)).Perm (pairs s) := by
  rw [Gen.fix]
  exact (gen_downheap_pairs _ i).trans (gen_upheap_pairs s i hi)

theorem gen_heapifyFrom_pairs (j : Nat) (s : PQ α β) :
    (pairs (Gen.heapifyFrom bt s j)).Perm (pairs s) := by
  induction j generalizing s with
  | zero => exact gen_downheap_pairs s 0
  | succ j ih =>
    rw [Gen.heapifyFrom]
    exact (ih _).trans (gen_downheap_pairs s (j + 1))

theorem items_eq_pairs (s : PQ α β) :
    MinHeapPriorityQueue.items s = (pairs s).map Prod.snd := by
  unfold MinHeapPriorityQueue.items pairs
  rw [List.map_map]
  rfl

theorem mem_pairs {s : PQ α β} {pr : β × α} (h : pr ∈ pairs s) :
    ∃ i, i < s.heap.length ∧ vAt s i = pr.1 ∧ (entry s i).item = pr.2 := by
  unfold pairs at h
  obtain ⟨t, ht, hft⟩ := List.mem_map.mp h
  obtain ⟨i, hi, hti⟩ := List.mem_iff_getElem.mp ht
  refine ⟨i, hi, ?_, ?_⟩
  · unfold vAt entry idAt
    rw [list_getD_eq_getElem _ _ _ hi, hti, ← hft]
  · unfold entry idAt
    rw [list_getD_eq_getElem _ _ _ hi, hti, ← hft]

theorem pairs_length (s : PQ α β) : (pairs s).length = s.heap.length := by
  unfold pairs
  rw [List.length_map]

theorem dropLast_idAt (s : PQ α β) (i : Nat) (hi : i < s.heap.length - 1) :
    idAt (⟨s.store, s.heap.dropLast⟩ : PQ α β) i = idAt s i := by
  unfold idAt
  exact list_getD_dropLast _ _ _ hi

theorem dropLast_vAt (s : PQ α β) (i : Nat) (hi : i < s.heap.length - 1) :
    vAt (⟨s.store, s.heap.dropLast⟩ : PQ α β) i = vAt s i := by
  unfold vAt entry locOf
  rw [dropLast_idAt s i hi]

theorem dropLast_WF {s : PQ α β} (hW : WF s) :
    WF (⟨s.store, s.heap.dropLast⟩ : PQ α β) := by
  obtain ⟨hids, hpos, hnd⟩ := hW
  refine ⟨?_, ?_, ?_⟩
  · intro i hi
    rw [List.length_dropLast] at hi
    show idAt (⟨s.store, s.heap.dropLast⟩ : PQ α β) i < s.store.length
    rw [dropLast_idAt s i hi]
    exact hids i (by omega)
  · intro i hi
    rw [List.length_dropLast] at hi
    unfold entry locOf
    rw [dropLast_idAt s i hi]
    exact hpos i (by omega)
  · exact hnd.sublist (List.dropLast_sublist s.heap)

theorem dropLast_pairs (s : PQ α β) (hne : s.heap ≠ []) :
    pairs s = pairs (⟨s.store, s.heap.dropLast⟩ : PQ α β) ++
      [((locOf s (idAt s (s.heap.length - 1))).value,
        (locOf s (idAt s (s.heap.length - 1))).item)] := by
  unfold pairs idAt
  have hlast : s.heap = s.heap.dropLast ++ [s.heap.getLast hne] :=
    (List.dropLast_append_getLast hne).symm
  have hlen : 0 < s.heap.length := List.length_pos.mpr hne
  have hget : s.heap.getD (s.heap.length - 1) 0 = s.heap.getLast hne := by
    rw [list_getD_eq_getElem _ _ _ (by omega), List.getLast_eq_getElem]
  rw [hget]
  conv_lhs => rw [hlast]
  rw [List.map_append]
  rfl

end PairsInfra

/-! ### Heap-order restoration by the sift primitives -/

theorem isChild_lt {q p : Nat} (h : IsChild q p) : p < q := by
  unfold IsChild at h; omega

theorem isChild_pos {q p : Nat} (h : IsChild q p) : 0 < q := by
  unfold IsChild at h; omega

theorem isChild_parent {q p : Nat} (h : IsChild q p) :
    MinHeapPriorityQueue.parent q = p := by
  unfold IsChild at h; unfold MinHeapPriorityQueue.parent; omega

theorem isChild_of_parent {m : Nat} (h : 0 < m) :
    IsChild m (MinHeapPriorityQueue.parent m) := by
  unfold IsChild MinHeapPriorityQueue.parent; omega

theorem parent_lt {i : Nat} (h : 0 < i) : MinHeapPriorityQueue.parent i < i := by
  unfold MinHeapPriorityQueue.parent; omega

section GenOrder

open MinHeapPriorityQueue

variable {bt : β → β → Prop} [DecidableRel bt]

theorem gen_childSel_isChild {s : PQ α β} {i : Nat}
    (h1 : left i < s.heap.length) : IsChild (Gen.childSel bt s i) i := by
  unfold Gen.childSel IsChild left right
  split
  · exact Or.inr rfl
  · exact Or.inl rfl

theorem gen_childSel_min (hasym : ∀ a b : β, bt a b → ¬ bt b a)
    {s : PQ α β} {i : Nat} (h1 : left i < s.heap.length) :
    ∀ q, q < s.heap.length → IsChild q i →
      ¬ bt (vAt s q) (vAt s (Gen.childSel bt s i)) := by
  have hirr : ∀ a : β, ¬ bt a a := fun a hb => hasym a a hb hb
  intro q hq hcq
  unfold IsChild at hcq
  unfold Gen.childSel
  unfold left right at *
  split
  · next hcnd =>
    rcases hcq with h | h
    · rw [h]
      exact hasym _ _ hcnd.2
    · rw [h]
      exact hirr _
  · next hcnd =>
    rcases hcq with h | h
    · rw [h]
      exact hirr _
    · rw [h]
      have := fun hb => hcnd ⟨h ▸ hq, hb⟩
      exact this

theorem gen_upheap_ordered
    (hasym : ∀ a b : β, bt a b → ¬ bt b a)
    (hltt : ∀ a b c : β, bt a b → bt b c → bt a c)
    (hnltt : ∀ a b c : β, ¬ bt b a → ¬ bt c b → ¬ bt c a)
    (s0 : PQ α β) (i0 : Nat) :
    i0 < s0.heap.length → WF s0 →
    (∀ p q, q < s0.heap.length → IsChild q p → q ≠ i0 →
      ¬ bt (vAt s0 q) (vAt s0 p)) →
    (0 < i0 → ∀ q, q < s0.heap.length → IsChild q i0 →
      ¬ bt (vAt s0 q) (vAt s0 (parent i0))) →
    genOrdered bt (Gen.upheap bt s0 i0) := by
  refine Gen.upheap.induct bt (fun s i => i < s.heap.length → WF s →
    (∀ p q, q < s.heap.length → IsChild q p → q ≠ i →
      ¬ bt (vAt s q) (vAt s p)) →
    (0 < i → ∀ q, q < s.heap.length → IsChild q i →
      ¬ bt (vAt s q) (vAt s (parent i))) →
    genOrdered bt (Gen.upheap bt s i)) ?_ ?_ s0 i0
  · intro s i h ih hi hW ha hb
    have hpl : parent i < i := parent_lt h.1
    have hp : parent i < s.heap.length := lt_trans hpl hi
    have hne : i ≠ parent i := by omega
    have hvpi : vAt (swap s i (parent i)) (parent i) = vAt s i := by
      rw [swap_vAt s i (parent i) (parent i) hi hp, if_pos rfl]
    have hvi : vAt (swap s i (parent i)) i = vAt s (parent i) := by
      rw [swap_vAt s i (parent i) i hi hp, if_neg hne, if_pos rfl]
    have hvo : ∀ x, x ≠ i → x ≠ parent i →
        vAt (swap s i (parent i)) x = vAt s x := by
      intro x h1 h2
      rw [swap_vAt s i (parent i) x hi hp, if_neg h2, if_neg h1]
    rw [gen_upheap_step s i h]
    refine ih ?_ ?_ ?_ ?_
    · rw [swap_heap_length]
      exact hp
    · exact swap_WF hW hi hp
    · intro p q hq hc hqpi
      rw [swap_heap_length] at hq
      have hpar : parent q = p := isChild_parent hc
      have hplt : p < q := isChild_lt hc
      by_cases hqi : q = i
      · have hppi : p = parent i := by rw [← hpar, hqi]
        rw [hqi, hppi, hvi, hvpi]
        exact hasym _ _ h.2
      · by_cases hpi2 : p = i
        · have hqgt : i < q := hpi2 ▸ hplt
          have hqnpi : q ≠ parent i := by omega
          rw [hpi2, hvi, hvo q hqi hqnpi]
          exact hb h.1 q hq (hpi2 ▸ hc)
        · by_cases hppi : p = parent i
          · have hqnpi : q ≠ parent i := by omega
            rw [hppi, hvpi, hvo q hqi hqnpi]
            intro hbt
            exact ha p q hq hc hqi (by rw [hppi]; exact hltt _ _ _ hbt h.2)
          · rw [hvo p hpi2 hppi, hvo q hqi hqpi]
            exact ha p q hq hc hqi
    · intro hpipos q hq hc
      rw [swap_heap_length] at hq
      have hgpl : parent (parent i) < parent i := parent_lt hpipos
      have hgp_ni : parent (parent i) ≠ i := by omega
      have hgp_npi : parent (parent i) ≠ parent i := by omega
      have hpichild : IsChild (parent i) (parent (parent i)) :=
        isChild_of_parent hpipos
      have hedge : ¬ bt (vAt s (parent i)) (vAt s (parent (parent i))) :=
        ha (parent (parent i)) (parent i) hp hpichild (by omega)
      rw [hvo (parent (parent i)) hgp_ni hgp_npi]
      by_cases hqi : q = i
      · rw [hqi, hvi]
        exact hedge
      · have hqgt : parent i < q := isChild_lt hc
        have hqnpi : q ≠ parent i := by omega
        rw [hvo q hqi hqnpi]
        have hedge2 : ¬ bt (vAt s q) (vAt s (parent i)) :=
          ha (parent i) q hq hc hqi
        exact hnltt _ _ _ hedge hedge2
  · intro s i h hi hW ha hb
    rw [gen_upheap_stop s i h]
    intro p hp q hq hc
    by_cases hqi : q = i
    · have hppar : p = parent i := by rw [← isChild_parent hc, hqi]
      have hipos : 0 < i := hqi ▸ isChild_pos hc
      rcases not_and_or.mp h with h0 | hnb
      · exact absurd hipos h0
      · rw [hqi, hppar]
        exact hnb
    · exact ha p q hq hc hqi

theorem gen_downheap_ordered
    (hasym : ∀ a b : β, bt a b → ¬ bt b a)
    (hnltt : ∀ a b c : β, ¬ bt b a → ¬ bt c b → ¬ bt c a)
    (lo : Nat) (s0 : PQ α β) (k0 : Nat) :
    WF s0 → k0 < s0.heap.length → lo ≤ k0 →
    (∀ p q, q < s0.heap.length → IsChild q p → lo ≤ p → p ≠ k0 →
      ¬ bt (vAt s0 q) (vAt s0 p)) →
    (k0 ≠ 0 → lo ≤ parent k0 → ∀ q, q < s0.heap.length → IsChild q k0 →
      ¬ bt (vAt s0 q) (vAt s0 (parent k0))) →
    ∀ p q, q < (Gen.downheap bt s0 k0).heap.length → IsChild q p → lo ≤ p →
      ¬ bt (vAt (Gen.downheap bt s0 k0) q) (vAt (Gen.downheap bt s0 k0) p) := by
  refine Gen.downheap.induct bt (fun s k => WF s → k < s.heap.length → lo ≤ k →
    (∀ p q, q < s.heap.length → IsChild q p → lo ≤ p → p ≠ k →
      ¬ bt (vAt s q) (vAt s p)) →
    (k ≠ 0 → lo ≤ parent k → ∀ q, q < s.heap.length → IsChild q k →
      ¬ bt (vAt s q) (vAt s (parent k))) →
    ∀ p q, q < (Gen.downheap bt s k).heap.length → IsChild q p → lo ≤ p →
      ¬ bt (vAt (Gen.downheap bt s k) q) (vAt (Gen.downheap bt s k) p)) ?_ ?_ ?_ s0 k0
  · intro s k h1 hlt ih hW hk hlo ha hb
    obtain ⟨hkc, hcn⟩ := gen_childSel_range bt h1
    have hcchild : IsChild (Gen.childSel bt s k) k := gen_childSel_isChild h1
    have hckne : k ≠ Gen.childSel bt s k := by omega
    have hv_c : vAt (swap s k (Gen.childSel bt s k)) (Gen.childSel bt s k) =
        vAt s k := by
      rw [swap_vAt s k (Gen.childSel bt s k) (Gen.childSel bt s k) hk hcn,
        if_pos rfl]
    have hv_k : vAt (swap s k (Gen.childSel bt s k)) k = vAt s (Gen.childSel bt s k) := by
      rw [swap_vAt s k (Gen.childSel bt s k) k hk hcn, if_neg hckne, if_pos rfl]
    have hv_o : ∀ x, x ≠ k → x ≠ Gen.childSel bt s k →
        vAt (swap s k (Gen.childSel bt s k)) x = vAt s x := by
      intro x hx1 hx2
      rw [swap_vAt s k (Gen.childSel bt s k) x hk hcn, if_neg hx2, if_neg hx1]
    rw [gen_downheap_step s k h1 hlt]
    refine ih (swap_WF hW hk hcn) ?_ (by omega) ?_ ?_
    · rw [swap_heap_length]
      exact hcn
    · intro p q hq hc hlop hpc
      rw [swap_heap_length] at hq
      have hpar : parent q = p := isChild_parent hc
      have hplt : p < q := isChild_lt hc
      by_cases hpk : p = k
      · by_cases hqc : q = Gen.childSel bt s k
        · rw [hpk, hqc, hv_c, hv_k]
          exact hasym _ _ hlt
        · have hqk : q ≠ k := by omega
          rw [hpk, hv_k, hv_o q hqk hqc]
          exact gen_childSel_min hasym h1 q hq (hpk ▸ hc)
      · by_cases hqk : q = k
        · have hppark : p = parent k := by rw [← hpar, hqk]
          have hk0 : k ≠ 0 := by
            have := isChild_pos hc
            omega
          have hpc2 : p ≠ Gen.childSel bt s k := by omega
          rw [hqk, hv_k, hv_o p hpk hpc2]
          have := hb hk0 (by rw [← hppark]; exact hlop) (Gen.childSel bt s k) hcn hcchild
          rw [hppark]
          exact this
        · by_cases hqc : q = Gen.childSel bt s k
          · exact absurd (by rw [← hpar, hqc, isChild_parent hcchild]) hpk
          · rw [hv_o p hpk hpc, hv_o q hqk hqc]
            exact ha p q hq hc hlop hpk
    · intro hc0 hlopc q hq hc
      rw [swap_heap_length] at hq
      have hparc : parent (Gen.childSel bt s k) = k := isChild_parent hcchild
      have hqgt : Gen.childSel bt s k < q := isChild_lt hc
      have hqk : q ≠ k := by omega
      have hqc : q ≠ Gen.childSel bt s k := by omega
      rw [hparc, hv_k, hv_o q hqk hqc]
      exact ha (Gen.childSel bt s k) q hq hc (by omega) (by omega)
  · intro s k h1 hlt hW hk hlo ha hb
    rw [gen_downheap_stop s k h1 hlt]
    intro p q hq hc hlop
    by_cases hpk : p = k
    · by_cases hqc : q = Gen.childSel bt s k
      · rw [hpk, hqc]
        exact hlt
      · have hmin := gen_childSel_min hasym h1 q hq (hpk ▸ hc)
        rw [hpk]
        exact hnltt _ _ _ hlt hmin
    · exact ha p q hq hc hlop hpk
  · intro s k h1 hW hk hlo ha hb
    rw [gen_downheap_leaf s k h1]
    intro p q hq hc hlop
    by_cases hpk : p = k
    · exfalso
      unfold IsChild at hc
      unfold left at h1
      omega
    · exact ha p q hq hc hlop hpk

theorem gen_fix_ordered
    (hasym : ∀ a b : β, bt a b → ¬ bt b a)
    (hltt : ∀ a b c : β, bt a b → bt b c → bt a c)
    (hnltt : ∀ a b c : β, ¬ bt b a → ¬ bt c b → ¬ bt c a)
    (s : PQ α β) (j : Nat) (hW : WF s) (hj : j < s.heap.length)
    (ha : ∀ p q, q < s.heap.length → IsChild q p → p ≠ j → q ≠ j →
      ¬ bt (vAt s q) (vAt s p))
    (hb : 0 < j → ∀ q, q < s.heap.length → IsChild q j →
      ¬ bt (vAt s q) (vAt s (parent j))) :
    genOrdered bt (Gen.fix bt s j) := by
  rw [Gen.fix]
  by_cases hcase : 0 < j ∧ bt (vAt s j) (vAt s (parent j))
  · have hup : genOrdered bt (Gen.upheap bt s j) := by
      refine gen_upheap_ordered hasym hltt hnltt s j hj hW ?_ hb
      intro p q hq hc hqj
      by_cases hpj : p = j
      · intro hbt
        exact hb hcase.1 q hq (hpj ▸ hc) (hltt _ _ _ (hpj ▸ hbt) hcase.2)
      · exact ha p q hq hc hpj hqj
    have hlen2 : (Gen.upheap bt s j).heap.length = s.heap.length :=
      gen_upheap_heap_length s j
    have hj2 : j < (Gen.upheap bt s j).heap.length := by rw [hlen2]; exact hj
    have hdh := gen_downheap_ordered hasym hnltt 0 (Gen.upheap bt s j) j
      (gen_upheap_WF s j hj hW) hj2 (Nat.zero_le j)
      (fun p q hq hc hlop hpj =>
        hup p (lt_trans (isChild_lt hc) hq) q hq hc)
      (fun hj0 h0 q hq hc =>
        hnltt _ _ _
          (hup (parent j) (by rw [hlen2] at *; exact lt_trans (parent_lt (Nat.pos_of_ne_zero hj0)) (lt_trans (isChild_lt hc) hq)) j hj2 (isChild_of_parent (Nat.pos_of_ne_zero hj0)))
          (hup j hj2 q hq hc))
    intro p hp q hq hc
    exact hdh p q hq hc (Nat.zero_le p)
  · have hstop : Gen.upheap bt s j = s := gen_upheap_stop s j hcase
    rw [hstop]
    have hdh := gen_downheap_ordered hasym hnltt 0 s j hW hj (Nat.zero_le j)
      (fun p q hq hc hlop hpj => by
        by_cases hqj : q = j
        · have hppar : p = parent j := by rw [← isChild_parent hc, hqj]
          have hj0 : 0 < j := hqj ▸ isChild_pos hc
          rcases not_and_or.mp hcase with h0 | hnb
          · exact absurd hj0 h0
          · rw [hqj, hppar]
            exact hnb
        · exact ha p q hq hc hpj hqj)
      (fun hj0 h0 q hq hc => hb (Nat.pos_of_ne_zero hj0) q hq hc)
    intro p hp q hq hc
    exact hdh p q hq hc (Nat.zero_le p)

theorem genOrdered_small {s : PQ α β} (h : s.heap.length ≤ 1) :
    genOrdered bt s := by
  intro p hp q hq hc
  unfold IsChild at hc
  omega

theorem gen_root_min
    (hasym : ∀ a b : β, bt a b → ¬ bt b a)
    (hnltt : ∀ a b c : β, ¬ bt b a → ¬ bt c b → ¬ bt c a)
    {s : PQ α β} (hord : genOrdered bt s) :
    ∀ i, i < s.heap.length → ¬ bt (vAt s i) (vAt s 0) := by
  have hirr : ∀ a : β, ¬ bt a a := fun a hb => hasym a a hb hb
  intro i
  induction i using Nat.strong_induction_on with
  | _ i ih =>
    intro hi
    by_cases h0 : i = 0
    · rw [h0]
      exact hirr _
    · have hpos : 0 < i := Nat.pos_of_ne_zero h0
      have hpl := parent_lt hpos
      have hedge : ¬ bt (vAt s i) (vAt s (parent i)) :=
        hord (parent i) (lt_trans hpl hi) i hi (isChild_of_parent hpos)
      exact hnltt _ _ _ (ih (parent i) hpl (lt_trans hpl hi)) hedge

theorem gen_heapifyFrom_ordered
    (hasym : ∀ a b : β, bt a b → ¬ bt b a)
    (hnltt : ∀ a b c : β, ¬ bt b a → ¬ bt c b → ¬ bt c a) :
    ∀ (j : Nat) (s : PQ α β), WF s → j < s.heap.length →
    (∀ p q, q < s.heap.length → IsChild q p → j < p →
      ¬ bt (vAt s q) (vAt s p)) →
    genOrdered bt (Gen.heapifyFrom bt s j) := by
  intro j
  induction j with
  | zero =>
    intro s hW hj hinv
    rw [Gen.heapifyFrom]
    have hdh := gen_downheap_ordered hasym hnltt 0 s 0 hW hj (Nat.le_refl 0)
      (fun p q hq hc hlop hp0 => hinv p q hq hc (Nat.pos_of_ne_zero hp0))
      (fun h0 => absurd rfl h0)
    intro p hp q hq hc
    exact hdh p q hq hc (Nat.zero_le p)
  | succ j ih =>
    intro s hW hj hinv
    rw [Gen.heapifyFrom]
    have hdh := gen_downheap_ordered hasym hnltt (j + 1) s (j + 1) hW hj
      (Nat.le_refl (j + 1))
      (fun p q hq hc hlop hpk => hinv p q hq hc (by omega))
      (fun hne habs => absurd habs (by unfold parent; omega))
    have hlen : (Gen.downheap bt s (j + 1)).heap.length = s.heap.length :=
      gen_downheap_heap_length s (j + 1)
    refine ih (Gen.downheap bt s (j + 1)) (gen_downheap_WF s (j + 1) hW) ?_ ?_
    · rw [hlen]
      omega
    · intro p q hq hc hjp
      rw [hlen] at hq
      exact hdh p q (by rw [hlen]; exact hq) hc (by omega)

theorem initPQ_store_length (key : α → β) (l : List α) :
    (initPQ key l).store.length = l.length := by
  unfold initPQ
  simp

theorem initPQ_heap_length (key : α → β) (l : List α) :
    (initPQ key l).heap.length = l.length := by
  unfold initPQ
  simp

theorem initPQ_idAt (key : α → β) (l : List α) (i : Nat) (hi : i < l.length) :
    idAt (initPQ key l) i = i := by
  unfold initPQ idAt
  show (List.range l.length).getD i 0 = i
  rw [list_getD_eq_getElem _ _ _ (by simpa using hi), List.getElem_range]

theorem initPQ_locOf (key : α → β) (l : List α) (i : Nat) (hi : i < l.length) :
    locOf (initPQ key l) i = ⟨key (l.getD i default), l.getD i default, i⟩ := by
  unfold initPQ locOf
  show (l.enum.map (fun p => (⟨key p.2, p.2, p.1⟩ : Locator α β))).getD i default = _
  rw [list_getD_eq_getElem _ _ _ (by simpa using hi), List.getElem_map,
    List.getElem_enum, list_getD_eq_getElem _ _ _ hi]

theorem initPQ_WF (key : α → β) (l : List α) : WF (initPQ key l) := by
  refine ⟨?_, ?_, ?_⟩
  · intro i hi
    rw [initPQ_heap_length] at hi
    rw [initPQ_store_length, initPQ_idAt key l i hi]
    exact hi
  · intro i hi
    rw [initPQ_heap_length] at hi
    unfold entry
    rw [initPQ_idAt key l i hi, initPQ_locOf key l i hi]
  · show (List.range l.length).Nodup
    exact List.nodup_range l.length

theorem initPQ_pairs (key : α → β) (l : List α) :
    pairs (initPQ key l) = l.map (fun x => (key x, x)) := by
  apply List.ext_getElem
  · rw [pairs_length, initPQ_heap_length, List.length_map]
  · intro i h1 h2
    rw [pairs_length, initPQ_heap_length] at h1
    simp only [pairs, initPQ, locOf, List.getElem_map, List.getElem_range]
    rw [list_getD_eq_getElem _ _ _ (by simpa using h1), List.getElem_map,
      List.getElem_enum]

theorem gen_fromList_eq (key : α → β) (l : List α) :
    Gen.fromList bt key l =
      if 1 < l.length then Gen.heapify bt (initPQ key l) else initPQ key l := by
  rw [Gen.fromList]
  show (if 1 < (List.range l.length).length then _ else _) = _
  rw [List.length_range]
  rfl

theorem gen_fromList_WF (key : α → β) (l : List α) :
    WF (Gen.fromList bt key l) := by
  rw [gen_fromList_eq]
  split
  · exact gen_heapifyFrom_WF _ _ (initPQ_WF key l)
  · exact initPQ_WF key l

theorem gen_fromList_heap_length (key : α → β) (l : List α) :
    (Gen.fromList bt key l).heap.length = l.length := by
  rw [gen_fromList_eq]
  split
  · rw [Gen.heapify, gen_heapifyFrom_heap_length, initPQ_heap_length]
  · rw [initPQ_heap_length]

theorem gen_fromList_store_length (key : α → β) (l : List α) :
    (Gen.fromList bt key l).store.length = l.length := by
  rw [gen_fromList_eq]
  split
  · rw [Gen.heapify, gen_heapifyFrom_store_length, initPQ_store_length]
  · rw [initPQ_store_length]

theorem gen_fromList_pairs (key : α → β) (l : List α) :
    (pairs (Gen.fromList bt key l)).Perm (l.map (fun x => (key x, x))) := by
  rw [gen_fromList_eq]
  split
  · rw [← initPQ_pairs key l]
    exact gen_heapifyFrom_pairs _ _
  · rw [initPQ_pairs key l]

theorem gen_fromList_ordered
    (hasym : ∀ a b : β, bt a b → ¬ bt b a)
    (hnltt : ∀ a b c : β, ¬ bt b a → ¬ bt c b → ¬ bt c a)
    (key : α → β) (l : List α) :
    genOrdered bt (Gen.fromList bt key l) := by
  rw [gen_fromList_eq]
  split
  · next h2 =>
    rw [Gen.heapify, initPQ_heap_length]
    refine gen_heapifyFrom_ordered hasym hnltt (parent (l.length - 1))
      (initPQ key l) (initPQ_WF key l) ?_ ?_
    · rw [initPQ_heap_length]
      have := parent_lt (show 0 < l.length - 1 by omega)
      omega
    · intro p q hq hc hjp
      rw [initPQ_heap_length] at hq
      exfalso
      unfold IsChild at hc
      unfold parent at hjp
      omega
  · next h2 =>
    exact genOrdered_small (by rw [initPQ_heap_length]; omega)

/-! ### Operation-level specifications (generic engine) -/

theorem idsOK_mem {s : PQ α β} (hids : idsOK s) {a : Nat} (ha : a ∈ s.heap) :
    a < s.store.length := by
  obtain ⟨i, hi, hia⟩ := List.mem_iff_getElem.mp ha
  have := hids i hi
  unfold idAt at this
  rw [list_getD_eq_getElem _ _ _ hi] at this
  rw [← hia]
  exact this

theorem idAt_mem {s : PQ α β} {i : Nat} (hi : i < s.heap.length) :
    idAt s i ∈ s.heap :=
  list_getD_mem _ _ _ hi

theorem nodup_idAt_unique {s : PQ α β} (hnd : s.heap.Nodup) {i j : Nat}
    (hi : i < s.heap.length) (hj : j < s.heap.length)
    (h : idAt s i = idAt s j) : i = j := by
  by_contra hne
  exact nodup_idAt_inj hnd hi hj hne h

theorem gen_append_spec
    (hasym : ∀ a b : β, bt a b → ¬ bt b a)
    (hltt : ∀ a b c : β, bt a b → bt b c → bt a c)
    (hnltt : ∀ a b c : β, ¬ bt b a → ¬ bt c b → ¬ bt c a)
    (key : α → β) (s : PQ α β) (x : α) (hW : WF s) (hord : genOrdered bt s) :
    WF (Gen.append bt key s x).1 ∧ genOrdered bt (Gen.append bt key s x).1 ∧
    (Gen.append bt key s x).1.heap.length = s.heap.length + 1 ∧
    (Gen.append bt key s x).1.store.length = s.store.length + 1 ∧
    (pairs (Gen.append bt key s x).1).Perm (pairs s ++ [(key x, x)]) ∧
    (Gen.append bt key s x).2 = s.store.length ∧
    (∀ a ∈ (Gen.append bt key s x).1.heap, a ∈ s.heap ∨ a = s.store.length) := by
  obtain ⟨hids, hpos, hnd⟩ := hW
  have happ : (Gen.append bt key s x).1 =
      Gen.upheap bt
        (⟨s.store ++ [⟨key x, x, s.heap.length⟩], s.heap ++ [s.store.length]⟩ : PQ α β)
        ((s.heap ++ [s.store.length]).length - 1) := rfl
  set s1 : PQ α β :=
    ⟨s.store ++ [⟨key x, x, s.heap.length⟩], s.heap ++ [s.store.length]⟩ with hs1
  have hlen1 : s1.heap.length = s.heap.length + 1 := by simp [hs1]
  have hslen1 : s1.store.length = s.store.length + 1 := by simp [hs1]
  have hidx : (s.heap ++ [s.store.length]).length - 1 = s.heap.length := by simp
  have hidAt1 : ∀ i, i < s.heap.length → idAt s1 i = idAt s i := fun i hi => by
    show (s.heap ++ [s.store.length]).getD i 0 = s.heap.getD i 0
    rw [list_getD_append_left _ _ _ _ hi]
  have hidAt1L : idAt s1 s.heap.length = s.store.length := by
    show (s.heap ++ [s.store.length]).getD s.heap.length 0 = s.store.length
    rw [list_getD_append_last]
  have hlocOf1 : ∀ a, a < s.store.length → locOf s1 a = locOf s a := fun a ha => by
    show (s.store ++ [_]).getD a default = s.store.getD a default
    rw [list_getD_append_left _ _ _ _ ha]
  have hlocOf1L : locOf s1 s.store.length = ⟨key x, x, s.heap.length⟩ := by
    show (s.store ++ [(⟨key x, x, s.heap.length⟩ : Locator α β)]).getD s.store.length default = _
    rw [list_getD_append_last]
  have htnotmem : s.store.length ∉ s.heap := fun hmem =>
    absurd (idsOK_mem hids hmem) (lt_irrefl _)
  have hW1 : WF s1 := by
    refine ⟨?_, ?_, ?_⟩
    · intro i hi
      rw [hlen1] at hi
      rw [hslen1]
      by_cases hilt : i < s.heap.length
      · rw [hidAt1 i hilt]
        exact lt_trans (hids i hilt) (Nat.lt_succ_self _)
      · have : i = s.heap.length := by omega
        rw [this, hidAt1L]
        exact Nat.lt_succ_self _
    · intro i hi
      rw [hlen1] at hi
      unfold entry
      by_cases hilt : i < s.heap.length
      · rw [hidAt1 i hilt, hlocOf1 _ (hids i hilt)]
        exact hpos i hilt
      · have hieq : i = s.heap.length := by omega
        rw [hieq, hidAt1L, hlocOf1L]
    · show (s.heap ++ [s.store.length]).Nodup
      rw [List.nodup_append]
      exact ⟨hnd, List.nodup_singleton _,
        fun a ha ha2 => htnotmem (List.mem_singleton.mp ha2 ▸ ha)⟩
  have hvAt1 : ∀ i, i < s.heap.length → vAt s1 i = vAt s i := fun i hi => by
    unfold vAt entry
    rw [hidAt1 i hi, hlocOf1 _ (hids i hi)]
  have hpairs1 : pairs s1 = pairs s ++ [(key x, x)] := by
    unfold pairs
    show (s.heap ++ [s.store.length]).map _ = _
    rw [List.map_append]
    congr 1
    · exact List.map_congr_left (fun a ha => by
        rw [hlocOf1 _ (idsOK_mem hids ha)])
    · show [((locOf s1 s.store.length).value, (locOf s1 s.store.length).item)] = _
      rw [hlocOf1L]
  have hupWF : WF (Gen.upheap bt s1 ((s.heap ++ [s.store.length]).length - 1)) := by
    rw [hidx]
    exact gen_upheap_WF s1 s.heap.length (by rw [hlen1]; omega) hW1
  have hupord : genOrdered bt (Gen.upheap bt s1 ((s.heap ++ [s.store.length]).length - 1)) := by
    rw [hidx]
    refine gen_upheap_ordered hasym hltt hnltt s1 s.heap.length
      (by rw [hlen1]; omega) hW1 ?_ ?_
    · intro p q hq hc hqn
      rw [hlen1] at hq
      have hqlt : q < s.heap.length := by omega
      have hplt : p < s.heap.length := lt_trans (isChild_lt hc) hqlt
      rw [hvAt1 q hqlt, hvAt1 p hplt]
      exact hord p hplt q hqlt hc
    · intro hpos2 q hq hc
      rw [hlen1] at hq
      exfalso
      unfold IsChild at hc
      omega
  refine ⟨?_, ?_, ?_, ?_, ?_, rfl, ?_⟩
  · rw [happ]
    exact hupWF
  · rw [happ]
    exact hupord
  · rw [happ, gen_upheap_heap_length, hlen1]
  · rw [happ, gen_upheap_store_length, hslen1]
  · rw [happ, ← hpairs1, hidx]
    exact gen_upheap_pairs s1 s.heap.length (by rw [hlen1]; omega)
  · intro a ha
    rw [happ, hidx] at ha
    have ha2 : a ∈ s1.heap :=
      (gen_upheap_heap_perm s1 s.heap.length (by rw [hlen1]; omega)).mem_iff.mp ha
    have : a ∈ s.heap ++ [s.store.length] := ha2
    rcases List.mem_append.mp this with h | h
    · exact Or.inl h
    · exact Or.inr (List.mem_singleton.mp h)

theorem gen_pop_spec
    (hasym : ∀ a b : β, bt a b → ¬ bt b a)
    (hnltt : ∀ a b c : β, ¬ bt b a → ¬ bt c b → ¬ bt c a)
    (s : PQ α β) (hW : WF s) (hord : genOrdered bt s)
    (hne : ¬ s.heap.length = 0) :
    ∃ s2, Gen.pop bt s = Except.ok (s2, (entry s 0).item) ∧ WF s2 ∧
      genOrdered bt s2 ∧ s2.heap.length = s.heap.length - 1 ∧
      s2.store.length = s.store.length ∧
      (pairs s).Perm ((vAt s 0, (entry s 0).item) :: pairs s2) ∧
      (∀ a ∈ s2.heap, a ∈ s.heap) := by
  have h0 : 0 < s.heap.length := Nat.pos_of_ne_zero hne
  have hn1 : s.heap.length - 1 < s.heap.length := by omega
  set s1 : PQ α β := swap s 0 (s.heap.length - 1) with hs1
  set s2pre : PQ α β := ⟨s1.store, s1.heap.dropLast⟩ with hs2pre
  have hpop : Gen.pop bt s = Except.ok (Gen.downheap bt s2pre 0,
      (locOf s1 (idAt s1 (s1.heap.length - 1))).item) := by
    rw [Gen.pop, if_neg hne]
  have hlen1 : s1.heap.length = s.heap.length := swap_heap_length s 0 _
  have hid_last : idAt s1 (s1.heap.length - 1) = idAt s 0 := by
    rw [hlen1, hs1, swap_idAt s 0 (s.heap.length - 1) (s.heap.length - 1) h0 hn1,
      if_pos rfl]
  have hitem : (locOf s1 (idAt s1 (s1.heap.length - 1))).item = (entry s 0).item := by
    rw [hid_last, hs1, swap_locOf_item]
    rfl
  have hval_last : (locOf s1 (idAt s1 (s1.heap.length - 1))).value = vAt s 0 := by
    rw [hid_last, hs1, swap_locOf_value]
    rfl
  have hW1 : WF s1 := swap_WF hW h0 hn1
  have hWpre : WF s2pre := dropLast_WF hW1
  have hlenpre : s2pre.heap.length = s.heap.length - 1 := by
    rw [hs2pre]
    show s1.heap.dropLast.length = _
    rw [List.length_dropLast, hlen1]
  have hvpre : ∀ x, x < s.heap.length - 1 → x ≠ 0 → vAt s2pre x = vAt s x := by
    intro x hx hx0
    rw [hs2pre]
    have hxx : x < s1.heap.length - 1 := by omega
    rw [dropLast_vAt s1 x hxx, hs1,
      swap_vAt s 0 (s.heap.length - 1) x h0 hn1, if_neg (by omega), if_neg hx0]
  have hpairs : (pairs s).Perm
      ((vAt s 0, (entry s 0).item) :: pairs (Gen.downheap bt s2pre 0)) := by
    have hne1 : s1.heap ≠ [] := by
      intro hnil
      rw [hnil] at hlen1
      simp at hlen1
      omega
    have hdp := dropLast_pairs s1 hne1
    have hstep : pairs s1 = pairs s2pre ++ [(vAt s 0, (entry s 0).item)] := by
      rw [hdp, hval_last, hitem]
    refine ((swap_pairs s 0 _ h0 hn1).symm).trans ?_
    rw [hstep]
    exact (List.perm_append_singleton _ _).trans
      ((gen_downheap_pairs s2pre 0).symm.cons _)
  refine ⟨Gen.downheap bt s2pre 0, by rw [hpop, hitem], gen_downheap_WF _ 0 hWpre,
    ?_, ?_, ?_, hpairs, ?_⟩
  · by_cases hone : s.heap.length = 1
    · refine genOrdered_small ?_
      rw [gen_downheap_heap_length, hlenpre, hone]
      omega
    · have hk0 : 0 < s2pre.heap.length := by omega
      have hdh := gen_downheap_ordered hasym hnltt 0 s2pre 0 hWpre hk0
        (Nat.le_refl 0)
        (fun p q hq hc hlop hp0 => by
          rw [hlenpre] at hq
          have hq0 : q ≠ 0 := by
            have := isChild_pos hc
            omega
          have hplt : p < s.heap.length - 1 := lt_trans (isChild_lt hc) hq
          rw [hvpre q hq hq0, hvpre p (by omega) hp0]
          exact hord p (by omega) q (by omega) hc)
        (fun habs => absurd rfl habs)
      intro p hp q hq hc
      exact hdh p q hq hc (Nat.zero_le p)
  · rw [gen_downheap_heap_length, hlenpre]
  · rw [gen_downheap_store_length, hs2pre]
    show s1.store.length = _
    rw [hs1, swap_store_length]
  · intro a ha
    have h1 : a ∈ s2pre.heap := (gen_downheap_heap_perm s2pre 0).mem_iff.mp ha
    have h2 : a ∈ s1.heap := (List.dropLast_sublist s1.heap).subset h1
    exact (swap_heap_perm s 0 _ h0 hn1).mem_iff.mp h2

theorem gen_remove_spec
    (hasym : ∀ a b : β, bt a b → ¬ bt b a)
    (hltt : ∀ a b c : β, bt a b → bt b c → bt a c)
    (hnltt : ∀ a b c : β, ¬ bt b a → ¬ bt c b → ¬ bt c a)
    (s : PQ α β) (t : Nat) (hW : WF s) (hord : genOrdered bt s)
    (hv : MinHeapPriorityQueue.valid s t) :
    ∃ s2, Gen.remove bt s t = Except.ok (s2, (locOf s t).item) ∧ WF s2 ∧
      genOrdered bt s2 ∧ s2.heap.length = s.heap.length - 1 ∧
      s2.store.length = s.store.length ∧
      (pairs s).Perm (((locOf s t).value, (locOf s t).item) :: pairs s2) ∧
      (∀ a ∈ s2.heap, a ∈ s.heap ∧ a ≠ t) ∧
      ((locOf s t).index = s.heap.length - 1 →
        s2 = (⟨s.store, s.heap.dropLast⟩ : PQ α β)) := by
  obtain ⟨hids, hpos, hnd⟩ := hW
  obtain ⟨hjn, hjt⟩ := hv
  have hne : s.heap ≠ [] := by
    intro hnil
    rw [hnil] at hjn
    simp at hjn
  by_cases hj_last : (locOf s t).index = s.heap.length - 1
  · have hrm : Gen.remove bt s t =
        Except.ok ((⟨s.store, s.heap.dropLast⟩ : PQ α β), (locOf s t).item) := by
      rw [Gen.remove, if_pos ⟨hjn, hjt⟩, if_pos hj_last]
    have hprs : pairs s = pairs (⟨s.store, s.heap.dropLast⟩ : PQ α β) ++
        [((locOf s t).value, (locOf s t).item)] := by
      have := dropLast_pairs s hne
      rw [← hj_last, hjt] at this
      exact this
    refine ⟨_, hrm, dropLast_WF ⟨hids, hpos, hnd⟩, ?_, ?_, rfl, ?_, ?_, fun _ => rfl⟩
    · intro p hp q hq hc
      show ¬ bt (vAt (⟨s.store, s.heap.dropLast⟩ : PQ α β) q) _
      rw [List.length_dropLast] at hp hq
      rw [dropLast_vAt s q hq, dropLast_vAt s p hp]
      exact hord p (by omega) q (by omega) hc
    · exact List.length_dropLast s.heap
    · rw [hprs]
      exact List.perm_append_singleton _ _
    · intro a ha
      obtain ⟨i, hi, hia⟩ := List.mem_iff_getElem.mp ha
      rw [List.length_dropLast] at hi
      have hidat : idAt s i = a := by
        unfold idAt
        rw [list_getD_eq_getElem _ _ _ (by omega), ← List.getElem_dropLast s.heap i
          (by rw [List.length_dropLast]; omega), hia]
      constructor
      · rw [← hidat]
        exact idAt_mem (by omega)
      · intro hat
        rw [hat, ← hjt] at hidat
        have := nodup_idAt_unique hnd (by omega) hjn hidat
        omega
  · have hn2 : (locOf s t).index < s.heap.length - 1 := by omega
    have hn1 : s.heap.length - 1 < s.heap.length := by omega
    set s1 : PQ α β := swap s ((locOf s t).index) (s.heap.length - 1) with hs1
    set s2pre : PQ α β := ⟨s1.store, s1.heap.dropLast⟩ with hs2pre
    have hrm : Gen.remove bt s t =
        Except.ok (Gen.fix bt s2pre ((locOf s t).index), (locOf s t).item) := by
      rw [Gen.remove, if_pos ⟨hjn, hjt⟩, if_neg hj_last]
    have hW1 : WF s1 := swap_WF ⟨hids, hpos, hnd⟩ hjn hn1
    have hWpre : WF s2pre := dropLast_WF hW1
    have hlen1 : s1.heap.length = s.heap.length := swap_heap_length s _ _
    have hlenpre : s2pre.heap.length = s.heap.length - 1 := by
      show s1.heap.dropLast.length = _
      rw [List.length_dropLast, hlen1]
    have hvpre : ∀ x, x < s.heap.length - 1 → x ≠ (locOf s t).index →
        vAt s2pre x = vAt s x := by
      intro x hx hxj
      have hxx : x < s1.heap.length - 1 := by omega
      rw [hs2pre]
      rw [dropLast_vAt s1 x hxx, hs1,
        swap_vAt s _ _ x hjn hn1, if_neg (by omega), if_neg hxj]
    have hpairs : (pairs s).Perm
        (((locOf s t).value, (locOf s t).item) :: pairs (Gen.fix bt s2pre ((locOf s t).index))) := by
      have hne1 : s1.heap ≠ [] := by
        intro hnil
        rw [hnil] at hlen1
        simp at hlen1
        omega
      have hid_last : idAt s1 (s1.heap.length - 1) = t := by
        rw [hlen1, hs1, swap_idAt s _ _ (s.heap.length - 1) hjn hn1, if_pos rfl, hjt]
      have hstep : pairs s1 = pairs s2pre ++
          [((locOf s t).value, (locOf s t).item)] := by
        have := dropLast_pairs s1 hne1
        rw [hid_last] at this
        rw [this, hs1, swap_locOf_value, swap_locOf_item]
      refine ((swap_pairs s _ _ hjn hn1).symm).trans ?_
      rw [hstep]
      exact (List.perm_append_singleton _ _).trans
        ((gen_fix_pairs s2pre _ (by rw [hlenpre]; omega)).symm.cons _)
    refine ⟨_, hrm, gen_fix_WF s2pre _ (by rw [hlenpre]; omega) hWpre, ?_, ?_, ?_,
      hpairs, ?_, fun habs => absurd habs hj_last⟩
    · refine gen_fix_ordered hasym hltt hnltt s2pre _ hWpre
        (by rw [hlenpre]; omega) ?_ ?_
      · intro p q hq hc hpj hqj
        rw [hlenpre] at hq
        have hplt : p < s.heap.length - 1 := lt_trans (isChild_lt hc) hq
        rw [hvpre q hq hqj, hvpre p hplt hpj]
        exact hord p (by omega) q (by omega) hc
      · intro hj0 q hq hc
        rw [hlenpre] at hq
        have hqj : q ≠ (locOf s t).index := by
          have := isChild_lt hc
          omega
        have hpj2 : parent ((locOf s t).index) ≠ (locOf s t).index := by
          have := parent_lt hj0
          omega
        have hplt : parent ((locOf s t).index) < s.heap.length - 1 := by
          have := parent_lt hj0
          omega
        rw [hvpre q hq hqj, hvpre _ hplt hpj2]
        refine hnltt _ _ _
          (hord (parent ((locOf s t).index)) (by omega) ((locOf s t).index) hjn
            (isChild_of_parent hj0)) ?_
        exact hord ((locOf s t).index) hjn q (by omega) hc
    · rw [gen_fix_heap_length, hlenpre]
    · show (Gen.fix bt s2pre _).store.length = _
      rw [gen_fix_store_length]
      show s1.store.length = _
      rw [hs1, swap_store_length]
    · intro a ha
      have h1 : a ∈ s2pre.heap :=
        ((gen_fix_heap_perm s2pre _ (by rw [hlenpre]; omega)).mem_iff).mp ha
      obtain ⟨i, hi, hia⟩ := List.mem_iff_getElem.mp h1
      have hilen : i < s.heap.length - 1 := by
        have : s2pre.heap.length = s.heap.length - 1 := hlenpre
        omega
      have hidat : idAt s1 i = a := by
        unfold idAt
        rw [list_getD_eq_getElem _ _ _ (by omega), ← List.getElem_dropLast s1.heap i
          (by rw [List.length_dropLast]; omega)]
        exact hia
      rw [hs1, swap_idAt s _ _ i hjn hn1] at hidat
      by_cases hin1 : i = s.heap.length - 1
      · omega
      · rw [if_neg hin1] at hidat
        by_cases hij : i = (locOf s t).index
        · rw [if_pos hij] at hidat
          constructor
          · rw [← hidat]
            exact idAt_mem hn1
          · intro hat
            rw [hat, ← hjt] at hidat
            have := nodup_idAt_unique hnd hn1 hjn hidat
            omega
        · rw [if_neg hij] at hidat
          constructor
          · rw [← hidat]
            exact idAt_mem (by omega)
          · intro hat
            rw [hat, ← hjt] at hidat
            have := nodup_idAt_unique hnd (by omega) hjn hidat
            omega

theorem gen_update_spec
    (hasym : ∀ a b : β, bt a b → ¬ bt b a)
    (hltt : ∀ a b c : β, bt a b → bt b c → bt a c)
    (hnltt : ∀ a b c : β, ¬ bt b a → ¬ bt c b → ¬ bt c a)
    (s : PQ α β) (t : Nat) (v : β) (x : α) (hW : WF s) (hord : genOrdered bt s)
    (hv : MinHeapPriorityQueue.valid s t) :
    ∃ s2, Gen.update bt s t v x = Except.ok s2 ∧ WF s2 ∧ genOrdered bt s2 ∧
      s2.heap.length = s.heap.length ∧ s2.store.length = s.store.length ∧
      (locOf s2 t).value = v ∧ (locOf s2 t).item = x ∧ t ∈ s2.heap ∧
      ((((locOf s t).value, (locOf s t).item) :: pairs s2).Perm
        ((v, x) :: pairs s)) ∧
      (∀ a ∈ s2.heap, a ∈ s.heap) ∧
      (pairs s2).Perm ((pairs s).set ((locOf s t).index) (v, x)) := by
  obtain ⟨hids, hpos, hnd⟩ := hW
  obtain ⟨hjn, hjt⟩ := hv
  have ht_lt : t < s.store.length := by
    rw [← hjt]
    exact hids _ hjn
  set s3 : PQ α β :=
    ⟨s.store.set t ⟨v, x, (locOf s t).index⟩, s.heap⟩ with hs3
  have hupd : Gen.update bt s t v x = Except.ok (Gen.fix bt s3 ((locOf s t).index)) := by
    rw [Gen.update, if_pos ⟨hjn, hjt⟩]
  have hidAt3 : ∀ i, idAt s3 i = idAt s i := fun i => rfl
  have hlocT : locOf s3 t = ⟨v, x, (locOf s t).index⟩ := by
    show (s.store.set t _).getD t default = _
    rw [list_getD_set_eq _ _ _ _ ht_lt]
  have hlocO : ∀ a, a ≠ t → locOf s3 a = locOf s a := fun a ha => by
    show (s.store.set t _).getD a default = _
    rw [list_getD_set_ne _ _ _ _ _ (fun h => ha h.symm)]
    rfl
  have hidne : ∀ i, i < s.heap.length → i ≠ (locOf s t).index → idAt s i ≠ t := by
    intro i hi hij hat
    rw [← hjt] at hat
    exact hij (nodup_idAt_unique hnd hi hjn hat)
  have hvAt3 : ∀ i, i < s.heap.length → i ≠ (locOf s t).index →
      vAt s3 i = vAt s i := by
    intro i hi hij
    unfold vAt entry
    rw [hidAt3 i, hlocO _ (hidne i hi hij)]
  have hvAt3j : vAt s3 ((locOf s t).index) = v := by
    unfold vAt entry
    rw [hidAt3, hjt, hlocT]
  have hW3 : WF s3 := by
    refine ⟨?_, ?_, ?_⟩
    · intro i hi
      show idAt s i < (s.store.set t _).length
      rw [List.length_set]
      exact hids i hi
    · intro i hi
      unfold entry
      rw [hidAt3 i]
      by_cases hij : i = (locOf s t).index
      · rw [hij, hjt, hlocT]
      · rw [hlocO _ (hidne i hi hij)]
        exact hpos i hi
    · exact hnd
  have hlen3 : s3.heap.length = s.heap.length := rfl
  have hpairs3 : pairs s3 = (pairs s).set ((locOf s t).index) (v, x) := by
    apply List.ext_getElem
    · rw [pairs_length, List.length_set, pairs_length]
    · intro i h1 h2
      rw [pairs_length] at h1
      rw [List.getElem_set]
      unfold pairs
      rw [List.getElem_map, List.getElem_map]
      have hid : s3.heap[i] = idAt s i := by
        show s.heap[i] = idAt s i
        unfold idAt
        rw [list_getD_eq_getElem _ _ _ (by exact h1)]
      split
      · next hij =>
        have hit : idAt s i = t := by
          rw [← hij, hjt]
        rw [hid, hit, hlocT]
      · next hij =>
        rw [hid, hlocO _ (hidne i (by exact h1) (fun h => hij h.symm))]
  have hjn3 : (locOf s t).index < s3.heap.length := hjn
  have hfixord : genOrdered bt (Gen.fix bt s3 ((locOf s t).index)) := by
    refine gen_fix_ordered hasym hltt hnltt s3 _ hW3 hjn3 ?_ ?_
    · intro p q hq hc hpj hqj
      rw [hlen3] at hq
      have hplt : p < s.heap.length := lt_trans (isChild_lt hc) hq
      rw [hvAt3 q hq hqj, hvAt3 p hplt hpj]
      exact hord p hplt q hq hc
    · intro hj0 q hq hc
      rw [hlen3] at hq
      have hqj : q ≠ (locOf s t).index := by
        have := isChild_lt hc
        omega
      have hpj2 : parent ((locOf s t).index) ≠ (locOf s t).index := by
        have := parent_lt hj0
        omega
      have hplt : parent ((locOf s t).index) < s.heap.length := by
        have := parent_lt hj0
        omega
      rw [hvAt3 q hq hqj, hvAt3 _ hplt hpj2]
      exact hnltt _ _ _
        (hord (parent ((locOf s t).index)) hplt ((locOf s t).index) hjn
          (isChild_of_parent hj0))
        (hord ((locOf s t).index) hjn q hq hc)
  have hmemT : t ∈ s3.heap := by
    rw [← hjt]
    exact idAt_mem hjn
  refine ⟨_, hupd, gen_fix_WF s3 _ hjn3 hW3, hfixord, ?_, ?_, ?_, ?_, ?_, ?_, ?_, ?_⟩
  · rw [gen_fix_heap_length, hlen3]
  · rw [gen_fix_store_length]
    show (s.store.set t _).length = _
    rw [List.length_set]
  · rw [gen_fix_locOf_value, hlocT]
  · rw [gen_fix_locOf_item, hlocT]
  · exact ((gen_fix_heap_perm s3 _ hjn3).mem_iff).mpr hmemT
  · have hold : (pairs s).getD ((locOf s t).index) (v, x) =
        ((locOf s t).value, (locOf s t).item) := by
      unfold pairs
      rw [list_getD_eq_getElem _ _ _ (by rw [List.length_map]; exact hjn),
        List.getElem_map]
      have hid : s.heap[(locOf s t).index] = t := by
        have h2 := hjt
        unfold idAt at h2
        rw [list_getD_eq_getElem _ _ _ hjn] at h2
        exact h2
      rw [hid]
    have hrepl := list_replace_perm (v, x) (v, x) (pairs s) ((locOf s t).index)
      (by rw [pairs_length]; exact hjn)
    rw [hold, ← hpairs3] at hrepl
    exact ((gen_fix_pairs s3 _ hjn3).cons _).trans hrepl
  · intro a ha
    exact ((gen_fix_heap_perm s3 _ hjn3).mem_iff).mp ha
  · exact hpairs3 ▸ gen_fix_pairs s3 _ hjn3

theorem gen_appendAll_spec
    (hasym : ∀ a b : β, bt a b → ¬ bt b a)
    (hltt : ∀ a b c : β, bt a b → bt b c → bt a c)
    (hnltt : ∀ a b c : β, ¬ bt b a → ¬ bt c b → ¬ bt c a)
    (key : α → β) :
    ∀ (l : List α) (s : PQ α β), WF s → genOrdered bt s →
    WF (Gen.appendAll bt key s l) ∧ genOrdered bt (Gen.appendAll bt key s l) ∧
    (pairs (Gen.appendAll bt key s l)).Perm
      (pairs s ++ l.map (fun x => (key x, x))) ∧
    (Gen.appendAll bt key s l).heap.length = s.heap.length + l.length := by
  intro l
  induction l with
  | nil =>
    intro s hW hord
    refine ⟨hW, hord, by simp [Gen.appendAll], by simp [Gen.appendAll]⟩
  | cons x l ih =>
    intro s hW hord
    obtain ⟨hW1, hord1, _, _, hpairs1, _, _⟩ :=
      gen_append_spec hasym hltt hnltt key s x hW hord
    have hstep : Gen.appendAll bt key s (x :: l) =
        Gen.appendAll bt key (Gen.append bt key s x).1 l := rfl
    obtain ⟨hW2, hord2, hpairs2, hlen2⟩ := ih (Gen.append bt key s x).1 hW1 hord1
    refine ⟨hstep ▸ hW2, hstep ▸ hord2, ?_, ?_⟩
    · rw [hstep]
      refine hpairs2.trans ?_
      refine (hpairs1.append_right _).trans ?_
      rw [List.append_assoc]
      exact List.Perm.refl _
    · rw [hstep, hlen2]
      have : (Gen.append bt key s x).1.heap.length = s.heap.length + 1 :=
        (gen_append_spec hasym hltt hnltt key s x hW hord).2.2.1
      rw [this]
      simp
      omega

theorem gen_drain_spec
    (hasym : ∀ a b : β, bt a b → ¬ bt b a)
    (hnltt : ∀ a b c : β, ¬ bt b a → ¬ bt c b → ¬ bt c a) :
    ∀ (k : Nat) (s : PQ α β), WF s → genOrdered bt s → k = s.heap.length →
    ∃ ps : List (β × α), ps.Perm (pairs s) ∧
      Gen.drain bt k s = ps.map Prod.snd ∧
      List.Sorted (fun a b : β => ¬ bt b a) (ps.map Prod.fst) := by
  intro k
  induction k with
  | zero =>
    intro s hW hord hk
    refine ⟨[], ?_, rfl, List.sorted_nil⟩
    have : pairs s = [] := by
      have := pairs_length s
      rw [← hk] at this
      exact List.eq_nil_of_length_eq_zero this
    rw [this]
  | succ k ih =>
    intro s hW hord hk
    have hne : ¬ s.heap.length = 0 := by omega
    obtain ⟨s2, hpop, hW2, hord2, hlen2, _, hpairs2, hmem2⟩ :=
      gen_pop_spec hasym hnltt s hW hord hne
    obtain ⟨ps2, hperm2, hdrain2, hsorted2⟩ := ih s2 hW2 hord2 (by omega)
    refine ⟨(vAt s 0, (entry s 0).item) :: ps2, ?_, ?_, ?_⟩
    · exact (hperm2.cons _).trans hpairs2.symm
    · show Gen.drain bt (k + 1) s = _
      rw [Gen.drain, hpop]
      show (entry s 0).item :: Gen.drain bt k s2 = _
      rw [hdrain2]
      rfl
    · rw [List.map_cons]
      rw [List.sorted_cons]
      refine ⟨?_, hsorted2⟩
      intro b hb
      obtain ⟨pr, hpr, hprb⟩ := List.mem_map.mp hb
      have hpr2 : pr ∈ pairs s2 := hperm2.mem_iff.mp hpr
      have hpr3 : pr ∈ pairs s := hpairs2.symm.mem_iff.mp (List.mem_cons_of_mem _ hpr2)
      obtain ⟨i, hi, hvi, _⟩ := mem_pairs hpr3
      rw [← hprb, ← hvi]
      exact gen_root_min hasym hnltt hord i hi

end GenOrder

/-! ### Instantiation of the order hypotheses for the two orientations -/

section OrderInst

variable [LinearOrder β]

theorem bt_lt_asym : ∀ a b : β, a < b → ¬ b < a := fun _ _ => lt_asymm

theorem bt_lt_trans : ∀ a b c : β, a < b → b < c → a < c := fun _ _ _ => lt_trans

theorem bt_lt_nltt : ∀ a b c : β, ¬ b < a → ¬ c < b → ¬ c < a := fun _ _ _ h1 h2 =>
  not_lt.mpr (le_trans (not_lt.mp h1) (not_lt.mp h2))

theorem bt_gt_asym : ∀ a b : β, (fun a b : β => b < a) a b →
    ¬ (fun a b : β => b < a) b a := fun _ _ => lt_asymm

theorem bt_gt_trans : ∀ a b c : β, (fun a b : β => b < a) a b →
    (fun a b : β => b < a) b c → (fun a b : β => b < a) a c :=
  fun _ _ _ h1 h2 => lt_trans h2 h1

theorem bt_gt_nltt : ∀ a b c : β, ¬ (fun a b : β => b < a) b a →
    ¬ (fun a b : β => b < a) c b → ¬ (fun a b : β => b < a) c a :=
  fun _ _ _ h1 h2 => not_lt.mpr (le_trans (not_lt.mp h2) (not_lt.mp h1))

end OrderInst


/-! ### Invariants of all reachable states -/

section ReachInv

variable [LinearOrder β]

theorem min_appendAll_eq_gen (key : α → β) : ∀ (l : List α) (s : PQ α β),
    MinHeapPriorityQueue.appendAll key s l =
      Gen.appendAll (fun a b : β => a < b) key s l
  | [], _ => rfl
  | x :: l, s => by
    show MinHeapPriorityQueue.appendAll key (MinHeapPriorityQueue.append key s x).1 l =
      Gen.appendAll _ key (Gen.append _ key s x).1 l
    rw [min_append_eq_gen, min_appendAll_eq_gen key l]

theorem min_drain_eq_gen : ∀ (k : Nat) (s : PQ α β),
    MinHeapPriorityQueue.drain k s = Gen.drain (fun a b : β => a < b) k s
  | 0, _ => rfl
  | k + 1, s => by
    rw [MinHeapPriorityQueue.drain, Gen.drain, min_pop_eq_gen]
    cases h : Gen.pop (fun a b : β => a < b) s with
    | ok p =>
      obtain ⟨s2, x⟩ := p
      show x :: MinHeapPriorityQueue.drain k s2 = x :: Gen.drain _ k s2
      rw [min_drain_eq_gen k s2]
    | error e => rfl

theorem minReachable_inv (key : α → β) (s : PQ α β) (h : MinReachable key s) :
    WF s ∧ minOrdered s := by
  induction h with
  | init l =>
    rw [min_fromList_eq_gen]
    exact ⟨gen_fromList_WF key l, (minOrdered_iff_gen _).mpr
      (gen_fromList_ordered bt_lt_asym bt_lt_nltt key l)⟩
  | append s x hr ih =>
    rw [min_append_eq_gen]
    obtain ⟨hW, hord, -⟩ := gen_append_spec bt_lt_asym bt_lt_trans bt_lt_nltt
      key s x ih.1 ((minOrdered_iff_gen s).mp ih.2)
    exact ⟨hW, (minOrdered_iff_gen _).mpr hord⟩
  | pop s s2 x hr hpop ih =>
    rw [min_pop_eq_gen] at hpop
    have hne : ¬ s.heap.length = 0 := by
      intro h0
      rw [Gen.pop, if_pos h0] at hpop
      exact Except.noConfusion hpop
    obtain ⟨s3, hpop2, hW2, hord2, -⟩ := gen_pop_spec bt_lt_asym bt_lt_nltt s
      ih.1 ((minOrdered_iff_gen s).mp ih.2) hne
    have hs3 : s3 = s2 :=
      congrArg Prod.fst (Except.ok.inj (hpop2.symm.trans hpop))
    exact hs3 ▸ ⟨hW2, (minOrdered_iff_gen _).mpr hord2⟩
  | remove s s2 t x hr hrm ih =>
    rw [min_remove_eq_gen] at hrm
    have hv : MinHeapPriorityQueue.valid s t := by
      by_contra hnv
      rw [Gen.remove, if_neg hnv] at hrm
      exact Except.noConfusion hrm
    obtain ⟨s3, hrm2, hW2, hord2, -⟩ := gen_remove_spec bt_lt_asym bt_lt_trans
      bt_lt_nltt s t ih.1 ((minOrdered_iff_gen s).mp ih.2) hv
    have hs3 : s3 = s2 :=
      congrArg Prod.fst (Except.ok.inj (hrm2.symm.trans hrm))
    exact hs3 ▸ ⟨hW2, (minOrdered_iff_gen _).mpr hord2⟩
  | update s s2 t v x hr hup ih =>
    rw [min_update_eq_gen] at hup
    have hv : MinHeapPriorityQueue.valid s t := by
      by_contra hnv
      rw [Gen.update, if_neg hnv] at hup
      exact Except.noConfusion hup
    obtain ⟨s3, hup2, hW2, hord2, -⟩ := gen_update_spec bt_lt_asym bt_lt_trans
      bt_lt_nltt s t v x ih.1 ((minOrdered_iff_gen s).mp ih.2) hv
    have hs3 : s3 = s2 := Except.ok.inj (hup2.symm.trans hup)
    exact hs3 ▸ ⟨hW2, (minOrdered_iff_gen _).mpr hord2⟩

theorem maxReachable_inv (key : α → β) (s : PQ α β) (h : MaxReachable key s) :
    WF s ∧ maxOrdered s := by
  induction h with
  | init l =>
    rw [max_fromList_eq_gen]
    exact ⟨gen_fromList_WF key l, (maxOrdered_iff_gen _).mpr
      (gen_fromList_ordered bt_gt_asym bt_gt_nltt key l)⟩
  | append s x hr ih =>
    rw [max_append_eq_gen]
    obtain ⟨hW, hord, -⟩ := gen_append_spec bt_gt_asym bt_gt_trans bt_gt_nltt
      key s x ih.1 ((maxOrdered_iff_gen s).mp ih.2)
    exact ⟨hW, (maxOrdered_iff_gen _).mpr hord⟩
  | pop s s2 x hr hpop ih =>
    rw [max_pop_eq_gen] at hpop
    have hne : ¬ s.heap.length = 0 := by
      intro h0
      rw [Gen.pop, if_pos h0] at hpop
      exact Except.noConfusion hpop
    obtain ⟨s3, hpop2, hW2, hord2, -⟩ := gen_pop_spec bt_gt_asym bt_gt_nltt s
      ih.1 ((maxOrdered_iff_gen s).mp ih.2) hne
    have hs3 : s3 = s2 :=
      congrArg Prod.fst (Except.ok.inj (hpop2.symm.trans hpop))
    exact hs3 ▸ ⟨hW2, (maxOrdered_iff_gen _).mpr hord2⟩
  | remove s s2 t x hr hrm ih =>
    rw [max_remove_eq_gen] at hrm
    have hv : MinHeapPriorityQueue.valid s t := by
      by_contra hnv
      rw [Gen.remove, if_neg hnv] at hrm
      exact Except.noConfusion hrm
    obtain ⟨s3, hrm2, hW2, hord2, -⟩ := gen_remove_spec bt_gt_asym bt_gt_trans
      bt_gt_nltt s t ih.1 ((maxOrdered_iff_gen s).mp ih.2) hv
    have hs3 : s3 = s2 :=
      congrArg Prod.fst (Except.ok.inj (hrm2.symm.trans hrm))
    exact hs3 ▸ ⟨hW2, (maxOrdered_iff_gen _).mpr hord2⟩
  | update s s2 t v x hr hup ih =>
    rw [max_update_eq_gen] at hup
    have hv : MinHeapPriorityQueue.valid s t := by
      by_contra hnv
      rw [Gen.update, if_neg hnv] at hup
      exact Except.noConfusion hup
    obtain ⟨s3, hup2, hW2, hord2, -⟩ := gen_update_spec bt_gt_asym bt_gt_trans
      bt_gt_nltt s t v x ih.1 ((maxOrdered_iff_gen s).mp ih.2) hv
    have hs3 : s3 = s2 := Except.ok.inj (hup2.symm.trans hup)
    exact hs3 ▸ ⟨hW2, (maxOrdered_iff_gen _).mpr hord2⟩

end ReachInv

/-! ### Dead locators stay dead -/

section DeadLocator

variable [Inhabited α] [Inhabited β] [LinearOrder β]

theorem minReachable_step (key : α → β) {s s2 : PQ α β}
    (hr : MinReachable key s) (hst : MinStep key s s2) : MinReachable key s2 := by
  cases hst with
  | append x => exact MinReachable.append s x hr
  | pop s2 x h => exact MinReachable.pop _ _ x hr h
  | remove s2 t x h => exact MinReachable.remove _ _ t x hr h
  | update s2 t v x h => exact MinReachable.update _ _ t v x hr h

theorem minSteps_reachable (key : α → β) {s s2 : PQ α β}
    (hr : MinReachable key s)
    (hsteps : Relation.ReflTransGen (MinStep key) s s2) : MinReachable key s2 := by
  induction hsteps with
  | refl => exact hr
  | tail h1 h2 ih => exact minReachable_step key ih h2

/-- One successful operation never brings a dead token back into the heap
array: `append` only stores the fresh identity `s.store.length`, and the
other operations only keep or drop existing identities. -/
theorem minStep_dead (key : α → β) {s s2 : PQ α β} (hst : MinStep key s s2)
    (hW : WF s) (hord : minOrdered s) {t : Nat}
    (ht : t < s.store.length) (hdead : t ∉ s.heap) :
    t ∉ s2.heap ∧ t < s2.store.length := by
  cases hst with
  | append x =>
    obtain ⟨-, -, -, hslen, -, -, hmem⟩ := gen_append_spec bt_lt_asym bt_lt_trans
      bt_lt_nltt key s x hW ((minOrdered_iff_gen s).mp hord)
    rw [min_append_eq_gen]
    constructor
    · intro hmem2
      rcases hmem t hmem2 with h | h
      · exact hdead h
      · omega
    · rw [hslen]
      omega
  | pop s2 x h =>
    rw [min_pop_eq_gen] at h
    have hne : ¬ s.heap.length = 0 := by
      intro h0
      rw [Gen.pop, if_pos h0] at h
      exact Except.noConfusion h
    obtain ⟨s3, hpop2, -, -, -, hslen, -, hmem⟩ := gen_pop_spec bt_lt_asym
      bt_lt_nltt s hW ((minOrdered_iff_gen s).mp hord) hne
    have hs3 : s3 = s2 := congrArg Prod.fst (Except.ok.inj (hpop2.symm.trans h))
    subst hs3
    exact ⟨fun hm => hdead (hmem t hm), by rw [hslen]; exact ht⟩
  | remove s2 t2 x h =>
    rw [min_remove_eq_gen] at h
    have hv : MinHeapPriorityQueue.valid s t2 := by
      by_contra hnv
      rw [Gen.remove, if_neg hnv] at h
      exact Except.noConfusion h
    obtain ⟨s3, hrm2, -, -, -, hslen, -, hmem, -⟩ := gen_remove_spec bt_lt_asym
      bt_lt_trans bt_lt_nltt s t2 hW ((minOrdered_iff_gen s).mp hord) hv
    have hs3 : s3 = s2 := congrArg Prod.fst (Except.ok.inj (hrm2.symm.trans h))
    subst hs3
    exact ⟨fun hm => hdead (hmem t hm).1, by rw [hslen]; exact ht⟩
  | update s2 t2 v x h =>
    rw [min_update_eq_gen] at h
    have hv : MinHeapPriorityQueue.valid s t2 := by
      by_contra hnv
      rw [Gen.update, if_neg hnv] at h
      exact Except.noConfusion h
    obtain ⟨s3, hup2, -, -, -, hslen, -, -, -, -, hmem, -⟩ := gen_update_spec
      bt_lt_asym bt_lt_trans bt_lt_nltt s t2 v x hW
      ((minOrdered_iff_gen s).mp hord) hv
    have hs3 : s3 = s2 := Except.ok.inj (hup2.symm.trans h)
    subst hs3
    exact ⟨fun hm => hdead (hmem t hm), by rw [hslen]; exact ht⟩

theorem minSteps_dead (key : α → β) {s s2 : PQ α β} (hr : MinReachable key s)
    {t : Nat} (ht : t < s.store.length) (hdead : t ∉ s.heap)
    (hsteps : Relation.ReflTransGen (MinStep key) s s2) :
    t ∉ s2.heap ∧ t < s2.store.length := by
  induction hsteps with
  | refl => exact ⟨hdead, ht⟩
  | tail h1 h2 ih =>
    obtain ⟨hW, hord⟩ := minReachable_inv key _ (minSteps_reachable key hr h1)
    exact minStep_dead key h2 hW hord ih.2 ih.1

/-- A token absent from the heap array never passes the `valid` guard, so
`remove` and `update` fail with the invalid-locator error. -/
theorem dead_invalid (s : PQ α β) (t : Nat) (hdead : t ∉ s.heap) :
    MinHeapPriorityQueue.remove s t = Except.error PQError.invalidLocator ∧
    (∀ v x, MinHeapPriorityQueue.update s t v x =
      Except.error PQError.invalidLocator) := by
  have hnv : ¬ MinHeapPriorityQueue.valid s t := by
    intro hv
    obtain ⟨hjn, hjt⟩ := hv
    exact hdead (hjt ▸ idAt_mem hjn)
  exact ⟨by rw [MinHeapPriorityQueue.remove, if_neg hnv],
    fun v x => by rw [MinHeapPriorityQueue.update, if_neg hnv]⟩

end DeadLocator

/-! ### Draining sorts by priority -/

section DrainSorted

variable [Inhabited α] [Inhabited β] [LinearOrder β]

/-- In a well-formed ordered min-queue whose (priority, payload) pairs are
those of `l` under `key`, popping everything returns a permutation of `l`
in non-decreasing key order. -/
theorem min_drain_of_pairs (key : α → β) (l : List α) (k : Nat) (s : PQ α β)
    (hW : WF s) (hord : minOrdered s)
    (hpairs : (pairs s).Perm (l.map (fun x => (key x, x))))
    (hk : k = s.heap.length) :
    (MinHeapPriorityQueue.drain k s).Perm l ∧
    List.Sorted (· ≤ ·) ((MinHeapPriorityQueue.drain k s).map key) := by
  obtain ⟨ps, hperm, hdrain, hsorted⟩ := gen_drain_spec bt_lt_asym bt_lt_nltt k s
    hW ((minOrdered_iff_gen s).mp hord) hk
  rw [min_drain_eq_gen, hdrain]
  have hmem : ∀ pr ∈ ps, pr.1 = key pr.2 := by
    intro pr hpr
    have hpr2 : pr ∈ l.map (fun x => (key x, x)) :=
      (hperm.trans hpairs).mem_iff.mp hpr
    obtain ⟨y, -, hy⟩ := List.mem_map.mp hpr2
    rw [← hy]
  constructor
  · refine ((hperm.trans hpairs).map Prod.snd).trans ?_
    rw [List.map_map]
    have hcomp : (Prod.snd ∘ fun x : α => (key x, x)) = id := rfl
    rw [hcomp, List.map_id]
  · rw [List.map_map]
    have hme : ps.map (key ∘ Prod.snd) = ps.map Prod.fst :=
      List.map_congr_left (fun pr hpr => (hmem pr hpr).symm)
    rw [hme]
    exact hsorted.imp (fun h => not_lt.mp h)

end DrainSorted

/-! ## The claims -/

section Claims

variable [Inhabited α] [Inhabited β]

/-- C1: position coherence — in every queue state reachable by the public
operations (construction from a sequence, append, pop, remove, update), on
either orientation, the locator stored at any live index `i` of the backing
array has its recorded `_index` field equal to `i`. -/
theorem C1_position_coherence [LinearOrder β] (key : α → β) (s : PQ α β) :
    (MinReachable key s → posOK s) ∧ (MaxReachable key s → posOK s) :=
  ⟨fun h => (minReachable_inv key s h).1.2.1,
   fun h => (maxReachable_inv key s h).1.2.1⟩

theorem C1_position_coherence_witness :
    posOK (MinHeapPriorityQueue.append (fun x : Int => x)
      (MinHeapPriorityQueue.fromList (fun x : Int => x) [3, 1, 2]) 0).1 ∧
    posOK (MaxHeapPriorityQueue.append (fun x : Int => x)
      (MaxHeapPriorityQueue.fromList (fun x : Int => x) [3, 1, 2]) 0).1 :=
  ⟨(C1_position_coherence (fun x : Int => x) _).1
      (MinReachable.append _ 0 (MinReachable.init [3, 1, 2])),
   (C1_position_coherence (fun x : Int => x) _).2
      (MaxReachable.append _ 0 (MaxReachable.init [3, 1, 2]))⟩

/-- C2: heap-order invariant — in every reachable state, on either
orientation, every index with an existing child `2i+1` or `2i+2` carries a
priority better-than-or-equal each existing child's: `≤` for the min
orientation, `≥` for the max orientation. -/
theorem C2_heap_order [LinearOrder β] (key : α → β) (s : PQ α β) :
    (MinReachable key s → minOrdered s) ∧ (MaxReachable key s → maxOrdered s) :=
  ⟨fun h => (minReachable_inv key s h).2, fun h => (maxReachable_inv key s h).2⟩

theorem C2_heap_order_witness :
    minOrdered (MinHeapPriorityQueue.append (fun x : Int => x)
      (MinHeapPriorityQueue.fromList (fun x : Int => x) [3, 1, 2]) 0).1 ∧
    maxOrdered (MaxHeapPriorityQueue.append (fun x : Int => x)
      (MaxHeapPriorityQueue.fromList (fun x : Int => x) [3, 1, 2]) 0).1 :=
  ⟨(C2_heap_order (fun x : Int => x) _).1
      (MinReachable.append _ 0 (MinReachable.init [3, 1, 2])),
   (C2_heap_order (fun x : Int => x) _).2
      (MaxReachable.append _ 0 (MaxReachable.init [3, 1, 2]))⟩

/-- C3: round trip — building a min-queue from any list of items (by
construction or by appending each in turn) and then popping everything
yields exactly those items in non-decreasing order of their key values (a
reference sort of the inputs by priority), and in particular popping
`fromList id [4, 0, 1, 3, 2]` yields `0` (Scenario A). -/
theorem C3_round_trip [LinearOrder β] (key : α → β) (l : List α) :
    ((MinHeapPriorityQueue.drain l.length
        (MinHeapPriorityQueue.fromList key l)).Perm l ∧
      List.Sorted (· ≤ ·) ((MinHeapPriorityQueue.drain l.length
        (MinHeapPriorityQueue.fromList key l)).map key)) ∧
    ((MinHeapPriorityQueue.drain l.length
        (MinHeapPriorityQueue.appendAll key (⟨[], []⟩ : PQ α β) l)).Perm l ∧
      List.Sorted (· ≤ ·) ((MinHeapPriorityQueue.drain l.length
        (MinHeapPriorityQueue.appendAll key (⟨[], []⟩ : PQ α β) l)).map key)) ∧
    (∃ s2, MinHeapPriorityQueue.pop
        (MinHeapPriorityQueue.fromList (fun x : Int => x) [4, 0, 1, 3, 2]) =
      Except.ok (s2, (0 : Int))) := by
  have hWe : WF (⟨[], []⟩ : PQ α β) :=
    ⟨fun i hi => absurd hi (Nat.not_lt_zero i),
     fun i hi => absurd hi (Nat.not_lt_zero i), List.nodup_nil⟩
  have horde : minOrdered (⟨[], []⟩ : PQ α β) :=
    (minOrdered_iff_gen _).mpr (genOrdered_small (Nat.zero_le 1))
  refine ⟨?_, ?_, ⟨_, rfl⟩⟩
  · rw [min_fromList_eq_gen]
    exact min_drain_of_pairs key l l.length _ (gen_fromList_WF key l)
      ((minOrdered_iff_gen _).mpr (gen_fromList_ordered bt_lt_asym bt_lt_nltt key l))
      (gen_fromList_pairs key l) (gen_fromList_heap_length key l).symm
  · rw [min_appendAll_eq_gen]
    obtain ⟨hW, hord, hpairs, hlen⟩ := gen_appendAll_spec bt_lt_asym bt_lt_trans
      bt_lt_nltt key l (⟨[], []⟩ : PQ α β) hWe ((minOrdered_iff_gen _).mp horde)
    refine min_drain_of_pairs key l l.length _ hW ((minOrdered_iff_gen _).mpr hord)
      hpairs ?_
    rw [hlen]
    show l.length = 0 + l.length
    omega

/-- C4 counterexample: a min-queue over the payloads `[0, 1]` with key
function `-x` holds `1` at the root (priority `-1 < 0`), yet iteration
yields `[0, 1]` — the payloads in their own ascending order — whose key
sequence `[0, -1]` is not non-decreasing, so iteration is not in ascending
priority order as claimed. -/
theorem C4_iter_not_by_priority_cex :
    MinHeapPriorityQueue.iter
      (MinHeapPriorityQueue.fromList (fun x : Int => -x) [0, 1]) = [0, 1] ∧
    ¬ List.Sorted (· ≤ ·)
      ((MinHeapPriorityQueue.iter
        (MinHeapPriorityQueue.fromList (fun x : Int => -x) [0, 1])).map
        (fun x : Int => -x)) := by
  have h1 : MinHeapPriorityQueue.iter
      (MinHeapPriorityQueue.fromList (fun x : Int => -x) [0, 1]) = [0, 1] := rfl
  refine ⟨h1, ?_⟩
  rw [h1]
  decide

/-- C4 (amended): iteration yields every live payload exactly once — a
permutation of the live payloads — in ascending *payload* order for the
min orientation and descending payload order for the max orientation (the
code sorts `self.items`, the bare payloads, so the sort key is the payload
itself, not its priority); iteration is a pure function of the state, so it
mutates neither the backing array nor any locator, and it coincides with
the priority order exactly when the key function is monotone (e.g. the
default identity key). -/
theorem C4_sorted_iteration [LinearOrder α] (s : PQ α β) :
    ((MinHeapPriorityQueue.iter s).Perm (MinHeapPriorityQueue.items s) ∧
      List.Sorted (· ≤ ·) (MinHeapPriorityQueue.iter s)) ∧
    ((MaxHeapPriorityQueue.iter s).Perm (MinHeapPriorityQueue.items s) ∧
      List.Sorted (fun a b : α => b ≤ a) (MaxHeapPriorityQueue.iter s)) := by
  constructor
  · exact ⟨List.perm_insertionSort (· ≤ ·) (MinHeapPriorityQueue.items s),
      List.sorted_insertionSort (· ≤ ·) (MinHeapPriorityQueue.items s)⟩
  · haveI hto : IsTotal α (fun a b : α => b ≤ a) := ⟨fun a b => le_total b a⟩
    haveI htr : IsTrans α (fun a b : α => b ≤ a) :=
      ⟨fun a b c hab hbc => le_trans hbc hab⟩
    exact ⟨List.perm_insertionSort (fun a b : α => b ≤ a)
        (MinHeapPriorityQueue.items s),
      List.sorted_insertionSort (fun a b : α => b ≤ a)
        (MinHeapPriorityQueue.items s)⟩

/-- C5: locator validation — for any locator token `t` of the queue,
`remove` and `update` (on either orientation; `update`/`remove` are shared
code paths guarded by the same check) fail if and only if the locator's
recorded index is outside `[0, size)` or the slot at that index holds a
different locator object (identity, not value equality), the error being
the invalid-locator error; on failure no new state is produced, so the
queue is unchanged (validation precedes every mutation). -/
theorem C5_locator_validation [LinearOrder β] (s : PQ α β) (t : Nat)
    (v : β) (x : α) (ht : t < s.store.length) :
    (MinHeapPriorityQueue.valid s t ↔
      ((locOf s t).index < s.heap.length ∧ idAt s ((locOf s t).index) = t)) ∧
    (¬ MinHeapPriorityQueue.valid s t →
      MinHeapPriorityQueue.remove s t = Except.error PQError.invalidLocator ∧
      MinHeapPriorityQueue.update s t v x = Except.error PQError.invalidLocator ∧
      MaxHeapPriorityQueue.remove s t = Except.error PQError.invalidLocator ∧
      MaxHeapPriorityQueue.update s t v x = Except.error PQError.invalidLocator) ∧
    (MinHeapPriorityQueue.valid s t →
      (∃ p, MinHeapPriorityQueue.remove s t = Except.ok p) ∧
      (∃ s2, MinHeapPriorityQueue.update s t v x = Except.ok s2)) := by
  refine ⟨Iff.rfl, ?_, ?_⟩
  · intro hnv
    refine ⟨?_, ?_, ?_, ?_⟩
    · rw [MinHeapPriorityQueue.remove, if_neg hnv]
    · rw [MinHeapPriorityQueue.update, if_neg hnv]
    · rw [MaxHeapPriorityQueue.remove, if_neg hnv]
    · rw [MaxHeapPriorityQueue.update, if_neg hnv]
  · intro hv
    constructor
    · by_cases hj : (locOf s t).index = s.heap.length - 1
      · exact ⟨_, by rw [MinHeapPriorityQueue.remove, if_pos hv, if_pos hj]⟩
      · exact ⟨_, by rw [MinHeapPriorityQueue.remove, if_pos hv, if_neg hj]⟩
    · exact ⟨_, by rw [MinHeapPriorityQueue.update, if_pos hv]⟩

theorem C5_locator_validation_witness :
    (MinHeapPriorityQueue.remove
        (⟨[⟨(5 : Int), (5 : Int), 0⟩], []⟩ : PQ Int Int) 0 =
        Except.error PQError.invalidLocator ∧
      MinHeapPriorityQueue.update
        (⟨[⟨(5 : Int), (5 : Int), 0⟩], []⟩ : PQ Int Int) 0 7 7 =
        Except.error PQError.invalidLocator ∧
      MaxHeapPriorityQueue.remove
        (⟨[⟨(5 : Int), (5 : Int), 0⟩], []⟩ : PQ Int Int) 0 =
        Except.error PQError.invalidLocator ∧
      MaxHeapPriorityQueue.update
        (⟨[⟨(5 : Int), (5 : Int), 0⟩], []⟩ : PQ Int Int) 0 7 7 =
        Except.error PQError.invalidLocator) ∧
    ((∃ p, MinHeapPriorityQueue.remove
        (MinHeapPriorityQueue.fromList (fun x : Int => x) [5, 6]) 0 =
        Except.ok p) ∧
      (∃ s2, MinHeapPriorityQueue.update
        (MinHeapPriorityQueue.fromList (fun x : Int => x) [5, 6]) 0 7 7 =
        Except.ok s2)) :=
  ⟨(C5_locator_validation
      (⟨[⟨(5 : Int), (5 : Int), 0⟩], []⟩ : PQ Int Int) 0 7 7
      (by decide)).2.1 (by decide),
   (C5_locator_validation
      (MinHeapPriorityQueue.fromList (fun x : Int => x) [5, 6]) 0 7 7
      (by decide)).2.2 (by decide)⟩

/-- C6: empty-queue failure — `peek` and `pop` fail with the empty-queue
error exactly when the size is 0 (on `pop` for both orientations), and the
error is surfaced as the operation's result; on a non-empty queue, `peek`
returns the payload stored at index 0 (as a pure function it mutates
nothing), and `pop` removes and returns that extremal payload — the one
whose priority is `≤` every live priority — leaving `n - 1` entries. -/
theorem C6_empty_queue [LinearOrder β] (s : PQ α β) :
    (s.heap.length = 0 →
      MinHeapPriorityQueue.peek s = Except.error PQError.empty ∧
      MinHeapPriorityQueue.pop s = Except.error PQError.empty ∧
      MaxHeapPriorityQueue.pop s = Except.error PQError.empty) ∧
    (s.heap.length ≠ 0 →
      MinHeapPriorityQueue.peek s = Except.ok (entry s 0).item ∧
      (WF s → minOrdered s →
        ∃ s2, MinHeapPriorityQueue.pop s = Except.ok (s2, (entry s 0).item) ∧
          s2.heap.length = s.heap.length - 1 ∧
          (∀ i, i < s.heap.length → vAt s 0 ≤ vAt s i))) := by
  constructor
  · intro h0
    refine ⟨?_, ?_, ?_⟩
    · rw [MinHeapPriorityQueue.peek, if_pos h0]
    · rw [MinHeapPriorityQueue.pop, if_pos h0]
    · rw [MaxHeapPriorityQueue.pop, if_pos h0]
  · intro hne
    refine ⟨by rw [MinHeapPriorityQueue.peek, if_neg hne], ?_⟩
    intro hW hord
    obtain ⟨s2, hpop, hW2, hord2, hlen2, -, -, -⟩ :=
      gen_pop_spec bt_lt_asym bt_lt_nltt s hW ((minOrdered_iff_gen s).mp hord) hne
    refine ⟨s2, by rw [min_pop_eq_gen]; exact hpop, hlen2, ?_⟩
    intro i hi
    exact not_lt.mp (gen_root_min bt_lt_asym bt_lt_nltt
      ((minOrdered_iff_gen s).mp hord) i hi)

theorem C6_empty_queue_witness :
    (MinHeapPriorityQueue.peek (⟨[], []⟩ : PQ Int Int) =
        Except.error PQError.empty ∧
      MinHeapPriorityQueue.pop (⟨[], []⟩ : PQ Int Int) =
        Except.error PQError.empty ∧
      MaxHeapPriorityQueue.pop (⟨[], []⟩ : PQ Int Int) =
        Except.error PQError.empty) ∧
    MinHeapPriorityQueue.peek
        (MinHeapPriorityQueue.fromList (fun x : Int => x) [5, 3]) =
      Except.ok (entry (MinHeapPriorityQueue.fromList (fun x : Int => x) [5, 3])
        0).item ∧
    (∃ s2, MinHeapPriorityQueue.pop
        (MinHeapPriorityQueue.fromList (fun x : Int => x) [5, 3]) =
        Except.ok (s2, (entry
          (MinHeapPriorityQueue.fromList (fun x : Int => x) [5, 3]) 0).item) ∧
      s2.heap.length =
        (MinHeapPriorityQueue.fromList (fun x : Int => x) [5, 3]).heap.length - 1 ∧
      (∀ i, i < (MinHeapPriorityQueue.fromList
          (fun x : Int => x) [5, 3]).heap.length →
        vAt (MinHeapPriorityQueue.fromList (fun x : Int => x) [5, 3]) 0 ≤
          vAt (MinHeapPriorityQueue.fromList (fun x : Int => x) [5, 3]) i)) :=
  ⟨(C6_empty_queue (⟨[], []⟩ : PQ Int Int)).1 rfl,
   ((C6_empty_queue
      (MinHeapPriorityQueue.fromList (fun x : Int => x) [5, 3])).2 (by decide)).1,
   ((C6_empty_queue
      (MinHeapPriorityQueue.fromList (fun x : Int => x) [5, 3])).2 (by decide)).2
     (by decide) (by decide)⟩

/-- C7: remove semantics — for a valid locator `t` with recorded index `j`
in a well-formed, heap-ordered queue of size `n`, `remove` returns the
locator's payload and a queue of size `n - 1`; if `j = n - 1` the result is
the mere truncation, otherwise it is the truncation after swapping `j` with
`n - 1`, fixed at `j` (sift-up then sift-down); well-formedness (including
position coherence) and heap order hold afterwards. -/
theorem C7_remove_semantics [LinearOrder β] (s : PQ α β) (t : Nat)
    (hW : WF s) (hord : minOrdered s) (hv : MinHeapPriorityQueue.valid s t) :
    ∃ s2, MinHeapPriorityQueue.remove s t = Except.ok (s2, (locOf s t).item) ∧
      s2.heap.length = s.heap.length - 1 ∧ WF s2 ∧ minOrdered s2 ∧
      ((locOf s t).index = s.heap.length - 1 →
        s2 = (⟨s.store, s.heap.dropLast⟩ : PQ α β)) ∧
      ((locOf s t).index ≠ s.heap.length - 1 →
        s2 = MinHeapPriorityQueue.fix
          (⟨(MinHeapPriorityQueue.swap s ((locOf s t).index)
              (s.heap.length - 1)).store,
            (MinHeapPriorityQueue.swap s ((locOf s t).index)
              (s.heap.length - 1)).heap.dropLast⟩ : PQ α β)
          ((locOf s t).index)) := by
  obtain ⟨s2, hrm, hW2, hord2, hlen2, -, -, -, hlast⟩ :=
    gen_remove_spec bt_lt_asym bt_lt_trans bt_lt_nltt s t hW
      ((minOrdered_iff_gen s).mp hord) hv
  rw [← min_remove_eq_gen] at hrm
  refine ⟨s2, hrm, hlen2, hW2, (minOrdered_iff_gen _).mpr hord2, hlast, ?_⟩
  intro hj
  have hdef : MinHeapPriorityQueue.remove s t = Except.ok
      (MinHeapPriorityQueue.fix
        (⟨(MinHeapPriorityQueue.swap s ((locOf s t).index)
            (s.heap.length - 1)).store,
          (MinHeapPriorityQueue.swap s ((locOf s t).index)
            (s.heap.length - 1)).heap.dropLast⟩ : PQ α β)
        ((locOf s t).index), (locOf s t).item) := by
    rw [MinHeapPriorityQueue.remove, if_pos hv, if_neg hj]
  exact (congrArg Prod.fst (Except.ok.inj (hdef.symm.trans hrm))).symm

set_option maxHeartbeats 1000000 in
theorem C7_remove_semantics_witness :
    (locOf (MinHeapPriorityQueue.appendAll (fun x : Int => x)
      (⟨[], []⟩ : PQ Int Int) [12, 46, 89, 101, 72, 81]) 1).item = 46 ∧
    (∃ s2, MinHeapPriorityQueue.remove
        (MinHeapPriorityQueue.appendAll (fun x : Int => x)
          (⟨[], []⟩ : PQ Int Int) [12, 46, 89, 101, 72, 81]) 1 =
        Except.ok (s2, (locOf (MinHeapPriorityQueue.appendAll (fun x : Int => x)
          (⟨[], []⟩ : PQ Int Int) [12, 46, 89, 101, 72, 81]) 1).item) ∧
      s2.heap.length = 5 ∧ WF s2 ∧ minOrdered s2) := by
  refine ⟨by decide, ?_⟩
  obtain ⟨s2, h1, h2, h3, h4, -, -⟩ := C7_remove_semantics
    (MinHeapPriorityQueue.appendAll (fun x : Int => x)
      (⟨[], []⟩ : PQ Int Int) [12, 46, 89, 101, 72, 81]) 1
    (by decide) (by decide) (by decide)
  exact ⟨s2, h1, by rw [h2]; decide, h3, h4⟩

/-- C8 counterexample: with duplicate payloads the old payload can remain a
member after `update`. Build from `[5, 5]` and update the first locator to
priority 7 / payload 7: the untouched second locator still carries payload
`5`, so `5` is still a member, contradicting the claim that the old payload
is no longer in the queue. -/
theorem C8_old_item_still_member_cex :
    ∃ s2, MinHeapPriorityQueue.update
        (MinHeapPriorityQueue.fromList (fun x : Int => x) [5, 5]) 0 7 7 =
      Except.ok s2 ∧ MinHeapPriorityQueue.containsItem s2 (5 : Int) :=
  ⟨_, rfl, by decide⟩

/-- C8 (amended): update semantics — for a valid locator in a well-formed
heap-ordered queue, `update` overwrites the locator's priority and payload
in place, fixes its slot, and succeeds with the same locator object live in
a queue of unchanged size satisfying both invariants; the new payload is a
member afterwards, and — provided the old payload occupied no *other* live
slot and differs from the new payload — the old payload is no longer a
member. -/
theorem C8_update_semantics [LinearOrder β] [DecidableEq α] (s : PQ α β)
    (t : Nat) (v : β) (x : α) (hW : WF s) (hord : minOrdered s)
    (hv : MinHeapPriorityQueue.valid s t)
    (hx : x ≠ (locOf s t).item)
    (huniq : ∀ i, i < s.heap.length → i ≠ (locOf s t).index →
      (entry s i).item ≠ (locOf s t).item) :
    ∃ s2, MinHeapPriorityQueue.update s t v x = Except.ok s2 ∧
      s2.heap.length = s.heap.length ∧ WF s2 ∧ minOrdered s2 ∧
      (locOf s2 t).value = v ∧ (locOf s2 t).item = x ∧ t ∈ s2.heap ∧
      MinHeapPriorityQueue.containsItem s2 x ∧
      ¬ MinHeapPriorityQueue.containsItem s2 ((locOf s t).item) := by
  obtain ⟨s2, hupd, hW2, hord2, hlen2, -, hvval, hvitem, hmemT, -, -, hset⟩ :=
    gen_update_spec bt_lt_asym bt_lt_trans bt_lt_nltt s t v x hW
      ((minOrdered_iff_gen s).mp hord) hv
  rw [← min_update_eq_gen] at hupd
  refine ⟨s2, hupd, hlen2, hW2, (minOrdered_iff_gen _).mpr hord2, hvval, hvitem,
    hmemT, ?_, ?_⟩
  · rw [MinHeapPriorityQueue.containsItem]
    exact List.mem_map.mpr ⟨t, hmemT, hvitem⟩
  · intro hold
    rw [MinHeapPriorityQueue.containsItem, items_eq_pairs] at hold
    obtain ⟨pr, hpr, hpr2⟩ := List.mem_map.mp hold
    have hprset : pr ∈ (pairs s).set ((locOf s t).index) (v, x) :=
      hset.mem_iff.mp hpr
    obtain ⟨i, hi, hieq⟩ := List.mem_iff_getElem.mp hprset
    have hi2 : i < (pairs s).length := by
      rw [List.length_set] at hi
      exact hi
    have hi3 : i < s.heap.length := by
      rw [pairs_length] at hi2
      exact hi2
    rw [List.getElem_set] at hieq
    by_cases hij : (locOf s t).index = i
    · rw [if_pos hij] at hieq
      rw [← hieq] at hpr2
      exact hx hpr2
    · rw [if_neg hij] at hieq
      have hix : idAt s i = s.heap[i] := list_getD_eq_getElem s.heap i 0 hi3
      have hpe : (pairs s)[i] =
          ((locOf s (idAt s i)).value, (locOf s (idAt s i)).item) := by
        show (s.heap.map
          (fun a => ((locOf s a).value, (locOf s a).item)))[i] = _
        rw [List.getElem_map, hix]
      have h5 : (entry s i).item = pr.2 := by
        rw [← hieq, hpe]
        rfl
      exact huniq i hi3 (fun h => hij h.symm) (h5.trans hpr2)

set_option maxHeartbeats 1000000 in
theorem C8_update_semantics_witness :
    (∃ s2, MinHeapPriorityQueue.update
        (MinHeapPriorityQueue.appendAll (fun x : Int => x)
          (⟨[], []⟩ : PQ Int Int) [5, 3, 8]) 2 1 99 = Except.ok s2 ∧
      WF s2 ∧ minOrdered s2 ∧ (locOf s2 2).value = 1 ∧ (locOf s2 2).item = 99 ∧
      MinHeapPriorityQueue.containsItem s2 (99 : Int) ∧
      ¬ MinHeapPriorityQueue.containsItem s2 (8 : Int)) ∧
    (∃ s2 s4, MinHeapPriorityQueue.update
        (MinHeapPriorityQueue.appendAll (fun x : Int => x)
          (⟨[], []⟩ : PQ Int Int) [5, 3, 8]) 2 1 99 = Except.ok s2 ∧
      MinHeapPriorityQueue.pop s2 = Except.ok (s4, (99 : Int))) := by
  constructor
  · obtain ⟨s2, h1, -, h3, h4, h5, h6, -, h8, h9⟩ := C8_update_semantics
      (MinHeapPriorityQueue.appendAll (fun x : Int => x)
        (⟨[], []⟩ : PQ Int Int) [5, 3, 8]) 2 1 99
      (by decide) (by decide) (by decide) (by decide) (by decide)
    have h8i : (locOf (MinHeapPriorityQueue.appendAll (fun x : Int => x)
        (⟨[], []⟩ : PQ Int Int) [5, 3, 8]) 2).item = 8 := by decide
    rw [h8i] at h9
    exact ⟨s2, h1, h3, h4, h5, h6, h8, h9⟩
  · exact ⟨_, _, rfl, rfl⟩

/-- C9: min/max duality — both orientations are the one generic engine at
opposite comparison directions: every public operation of
`MaxHeapPriorityQueue` equals the generic engine's operation at the flipped
is-better-than comparison (and flipped iteration order), and every public
operation of `MinHeapPriorityQueue` equals it at the plain comparison, so
the two variants differ in nothing but the comparison direction. -/
theorem C9_minmax_duality [LinearOrder α] [LinearOrder β] :
    (∀ (key : α → β) (l : List α),
      MaxHeapPriorityQueue.fromList key l =
        Gen.fromList (fun a b : β => b < a) key l ∧
      MinHeapPriorityQueue.fromList key l =
        Gen.fromList (fun a b : β => a < b) key l) ∧
    (∀ (key : α → β) (s : PQ α β) (x : α),
      MaxHeapPriorityQueue.append key s x =
        Gen.append (fun a b : β => b < a) key s x ∧
      MinHeapPriorityQueue.append key s x =
        Gen.append (fun a b : β => a < b) key s x) ∧
    (∀ s : PQ α β,
      MaxHeapPriorityQueue.pop s = Gen.pop (fun a b : β => b < a) s ∧
      MinHeapPriorityQueue.pop s = Gen.pop (fun a b : β => a < b) s) ∧
    (∀ (s : PQ α β) (t : Nat),
      MaxHeapPriorityQueue.remove s t = Gen.remove (fun a b : β => b < a) s t ∧
      MinHeapPriorityQueue.remove s t = Gen.remove (fun a b : β => a < b) s t) ∧
    (∀ (s : PQ α β) (t : Nat) (v : β) (x : α),
      MaxHeapPriorityQueue.update s t v x =
        Gen.update (fun a b : β => b < a) s t v x ∧
      MinHeapPriorityQueue.update s t v x =
        Gen.update (fun a b : β => a < b) s t v x) ∧
    (∀ s : PQ α β,
      MaxHeapPriorityQueue.iter s = Gen.iter (fun a b : α => b ≤ a) s ∧
      MinHeapPriorityQueue.iter s = Gen.iter (fun a b : α => a ≤ b) s) :=
  ⟨fun key l => ⟨max_fromList_eq_gen key l, min_fromList_eq_gen key l⟩,
   fun key s x => ⟨max_append_eq_gen key s x, min_append_eq_gen key s x⟩,
   fun s => ⟨max_pop_eq_gen s, min_pop_eq_gen s⟩,
   fun s t => ⟨max_remove_eq_gen s t, min_remove_eq_gen s t⟩,
   fun s t v x => ⟨max_update_eq_gen s t v x, min_update_eq_gen s t v x⟩,
   fun s => ⟨max_iter_eq_gen s, min_iter_eq_gen s⟩⟩

/-- C10: dead locators are always detected — start from any reachable state
whose store holds token `t` while the heap array does not (the locator was
popped, removed, or never belonged to this queue's live set); after any
further sequence of successful public operations the token is still not in
the heap array (append stores only the fresh identity `store.length`), so
`remove` and `update` on it fail with the invalid-locator error — producing
no new state, hence leaving the queue unchanged — even when later appends
have grown the array back over the token's recorded index. -/
theorem C10_dead_locators [LinearOrder β] (key : α → β) (s s2 : PQ α β)
    (t : Nat) (hr : MinReachable key s) (ht : t < s.store.length)
    (hdead : t ∉ s.heap) (hsteps : MinSteps key s s2) :
    t ∉ s2.heap ∧
    MinHeapPriorityQueue.remove s2 t = Except.error PQError.invalidLocator ∧
    (∀ v x, MinHeapPriorityQueue.update s2 t v x =
      Except.error PQError.invalidLocator) := by
  obtain ⟨hd2, -⟩ := minSteps_dead key hr ht hdead hsteps
  exact ⟨hd2, (dead_invalid s2 t hd2).1, (dead_invalid s2 t hd2).2⟩

theorem C10_dead_locators_witness :
    (0 : Nat) ∉ (MinHeapPriorityQueue.append (fun x : Int => x)
      (⟨[⟨(12 : Int), (12 : Int), 1⟩, ⟨(46 : Int), (46 : Int), 0⟩],
        [1]⟩ : PQ Int Int) 7).1.heap ∧
    MinHeapPriorityQueue.remove (MinHeapPriorityQueue.append (fun x : Int => x)
      (⟨[⟨(12 : Int), (12 : Int), 1⟩, ⟨(46 : Int), (46 : Int), 0⟩],
        [1]⟩ : PQ Int Int) 7).1 0 = Except.error PQError.invalidLocator ∧
    (∀ v x, MinHeapPriorityQueue.update
      (MinHeapPriorityQueue.append (fun x : Int => x)
        (⟨[⟨(12 : Int), (12 : Int), 1⟩, ⟨(46 : Int), (46 : Int), 0⟩],
          [1]⟩ : PQ Int Int) 7).1 0 v x =
      Except.error PQError.invalidLocator) :=
  C10_dead_locators (fun x : Int => x) _ _ 0
    (MinReachable.pop (MinHeapPriorityQueue.fromList (fun x : Int => x) [12, 46])
      _ 12 (MinReachable.init [12, 46]) rfl)
    (by decide) (by decide)
    (Relation.ReflTransGen.single (MinStep.append _ 7))

end Claims

end PriorityQueue


